import Mathlib

/- Shallow embedding of the scatter-gather VDIF I/O engine (scatgat.c / scatgat.h).

   The engine coordinates a plan of shards (SGPart), each wrapping one SG file
   (SGInfo).  The external SG access layer and the filesystem are out of the
   repository; they are modelled by explicit fields on SGInfo:
   - blocks      : the block-by-index packet contents served by sg_pkt_by_blk;
   - resizeOk    : whether ftruncate / mremap calls succeed for this file;
   - data        : the records appended to the memory-mapped region in write
                   mode (the observable contents written through write_to_sg);
   - smi.fileLen : the on-disk length of the backing file (set by ftruncate).

   VDIF header words are 32-bit unsigned fields; values are modelled as Nat and
   the one place the C code does arithmetic on them (the df + 1 comparison in
   the contiguity test) applies the uint32 truncation u32 explicitly. -/

def U32MOD : Nat := 4294967296

def u32 (n : Nat) : Nat := n % U32MOD

/-- One VDIF frame, reduced to the header fields the engine consults. -/
structure VDIFFrame where
  secs_inre : Nat
  df_num_insec : Nat
  ref_epoch : Nat
  df_len : Nat
  deriving DecidableEq

instance : Inhabited VDIFFrame := ⟨⟨0, 0, 0, 0⟩⟩

/-- Records appended to a write-mode mapped region through write_to_sg:
    a file header tag, a write-block header tag, or a packet payload. -/
inductive AppendRec where
  | fileHeader (packet_size block_size : Nat)
  | blockHeader (blocknum wb_size : Nat)
  | payload (frames : List VDIFFrame)
  deriving DecidableEq

/-- The memory-map bookkeeping of one SG file (struct sg_mmap_info).
    size is repurposed in write mode as the byte offset of the next write;
    mapLen models eomem - start; fileLen models the backing file's length. -/
structure SGMMInfo where
  mmfd : Int
  size : Nat
  mapLen : Nat
  fileLen : Nat
  deriving DecidableEq

/-- One SG file descriptor (SGInfo), with the environment model fields
    described in the header comment. -/
structure SGInfo where
  smi : SGMMInfo
  pkt_size : Nat
  pkt_offset : Nat
  first_secs : Nat
  first_frame : Nat
  ref_epoch : Nat
  sg_total_blks : Nat
  sg_wr_pkts : Nat
  blocks : List (List VDIFFrame)
  resizeOk : Bool
  data : List AppendRec
  deriving DecidableEq

instance : Inhabited SGInfo :=
  ⟨⟨⟨0, 0, 0, 0⟩, 0, 0, 0, 0, 0, 0, 0, [], true, []⟩⟩

/-- One shard of a plan (struct sg_part): SG file handle, next block index,
    staging buffer and its frame count.  A NULL data_buf is the empty list. -/
structure SGPart where
  sgi : SGInfo
  iblock : Nat
  data_buf : List VDIFFrame
  n_frames : Nat
  deriving DecidableEq

instance : Inhabited SGPart := ⟨⟨default, 0, [], 0⟩⟩

/-- enum scatgat_mode. -/
inductive SGMode where
  | read
  | write
  deriving DecidableEq

/-- A plan (struct sg_plan): mode flag plus the ordered shard array. -/
structure SGPlan where
  sgm : SGMode
  sgprt : List SGPart

/-- Macro FIRST_VDIF_SECS_INRE: seconds field of the first staged frame. -/
def FIRST_VDIF_SECS_INRE (a : SGPart) : Nat :=
  (a.data_buf.getD 0 default).secs_inre

/-- Macro LAST_VDIF_SECS_INRE: seconds field of staged frame n_frames - 1. -/
def LAST_VDIF_SECS_INRE (a : SGPart) : Nat :=
  (a.data_buf.getD (a.n_frames - 1) default).secs_inre

/-- Macro FIRST_VDIF_DF_NUM_INSEC: frame index of the first staged frame. -/
def FIRST_VDIF_DF_NUM_INSEC (a : SGPart) : Nat :=
  (a.data_buf.getD 0 default).df_num_insec

/-- Macro LAST_VDIF_DF_NUM_INSEC: frame index of staged frame n_frames - 1. -/
def LAST_VDIF_DF_NUM_INSEC (a : SGPart) : Nat :=
  (a.data_buf.getD (a.n_frames - 1) default).df_num_insec

/-- test_sg_parts_contiguous from scatgat.c (the richer, in-body definition):
    decides whether shard buffer b continues shard buffer a in time.  The
    NULL-pointer guard of the C function has no counterpart here because
    SGPart values are always present. -/
def test_sg_parts_contiguous (a b : SGPart) : Bool :=
  let secs_inre_a_last := LAST_VDIF_SECS_INRE a
  let secs_inre_a_first := FIRST_VDIF_SECS_INRE a
  let secs_inre_b_first := FIRST_VDIF_SECS_INRE b
  let df_num_insec_a_last := LAST_VDIF_DF_NUM_INSEC a
  let df_num_insec_a_first := FIRST_VDIF_DF_NUM_INSEC a
  let df_num_insec_b_first := FIRST_VDIF_DF_NUM_INSEC b
  if secs_inre_a_first = secs_inre_a_last then
    if secs_inre_b_first = secs_inre_a_last then
      decide (df_num_insec_b_first ≥ df_num_insec_a_first ∧
              df_num_insec_b_first ≤ u32 (df_num_insec_a_last + 1))
    else false
  else
    if secs_inre_b_first = secs_inre_a_first then
      decide (df_num_insec_b_first ≥ df_num_insec_a_first)
    else if secs_inre_b_first = secs_inre_a_last then
      decide (df_num_insec_b_first ≤ u32 (df_num_insec_a_last + 1))
    else
      decide (secs_inre_b_first > secs_inre_a_first ∧
              secs_inre_b_first < secs_inre_a_last)

/-- The adjacency case analysis exactly as the specification words it: the
    cross-second case is guarded by a strictly spanning a (first second
    strictly before last second), and every pair outside the two cases is
    non-contiguous. -/
def adjacencySpecClaimed (a b : SGPart) : Prop :=
  (FIRST_VDIF_SECS_INRE a = LAST_VDIF_SECS_INRE a ∧
   FIRST_VDIF_SECS_INRE b = FIRST_VDIF_SECS_INRE a ∧
   FIRST_VDIF_DF_NUM_INSEC a ≤ FIRST_VDIF_DF_NUM_INSEC b ∧
   FIRST_VDIF_DF_NUM_INSEC b ≤ u32 (LAST_VDIF_DF_NUM_INSEC a + 1)) ∨
  (FIRST_VDIF_SECS_INRE a < LAST_VDIF_SECS_INRE a ∧
   ((FIRST_VDIF_SECS_INRE b = FIRST_VDIF_SECS_INRE a ∧
     FIRST_VDIF_DF_NUM_INSEC a ≤ FIRST_VDIF_DF_NUM_INSEC b) ∨
    (FIRST_VDIF_SECS_INRE b = LAST_VDIF_SECS_INRE a ∧
     FIRST_VDIF_DF_NUM_INSEC b ≤ u32 (LAST_VDIF_DF_NUM_INSEC a + 1)) ∨
    (FIRST_VDIF_SECS_INRE a < FIRST_VDIF_SECS_INRE b ∧
     FIRST_VDIF_SECS_INRE b < LAST_VDIF_SECS_INRE a)))

instance (a b : SGPart) : Decidable (adjacencySpecClaimed a b) := by
  unfold adjacencySpecClaimed; infer_instance

/-- The adjacency case analysis the code actually implements: the second case
    is entered whenever a's first and last seconds differ (in either
    direction), not only when a spans a boundary forwards. -/
def adjacencySpecAmended (a b : SGPart) : Prop :=
  (FIRST_VDIF_SECS_INRE a = LAST_VDIF_SECS_INRE a ∧
   FIRST_VDIF_SECS_INRE b = FIRST_VDIF_SECS_INRE a ∧
   FIRST_VDIF_DF_NUM_INSEC a ≤ FIRST_VDIF_DF_NUM_INSEC b ∧
   FIRST_VDIF_DF_NUM_INSEC b ≤ u32 (LAST_VDIF_DF_NUM_INSEC a + 1)) ∨
  (FIRST_VDIF_SECS_INRE a ≠ LAST_VDIF_SECS_INRE a ∧
   ((FIRST_VDIF_SECS_INRE b = FIRST_VDIF_SECS_INRE a ∧
     FIRST_VDIF_DF_NUM_INSEC a ≤ FIRST_VDIF_DF_NUM_INSEC b) ∨
    (FIRST_VDIF_SECS_INRE b = LAST_VDIF_SECS_INRE a ∧
     FIRST_VDIF_DF_NUM_INSEC b ≤ u32 (LAST_VDIF_DF_NUM_INSEC a + 1)) ∨
    (FIRST_VDIF_SECS_INRE a < FIRST_VDIF_SECS_INRE b ∧
     FIRST_VDIF_SECS_INRE b < LAST_VDIF_SECS_INRE a)))

instance (a b : SGPart) : Decidable (adjacencySpecAmended a b) := by
  unfold adjacencySpecAmended; infer_instance

/-- Shard buffer whose two frames are in reversed second order: first frame at
    second 5, last frame at second 3. -/
def adjCexA : SGPart :=
  ⟨default, 0, [⟨5, 0, 0, 0⟩, ⟨3, 0, 0, 0⟩], 2⟩

/-- Shard buffer starting at second 5, frame 1: later than adjCexA ends. -/
def adjCexB : SGPart :=
  ⟨default, 0, [⟨5, 1, 0, 0⟩], 1⟩

/-- C1 counterexample: the code declares adjCexB contiguous to adjCexA even
    though adjCexB starts in second 5, strictly later than the second (3) in
    which adjCexA ends, so the claimed case analysis (which makes every such
    pair non-contiguous) does not match the code. -/
theorem C1_adjacency_counterexample :
    test_sg_parts_contiguous adjCexA adjCexB = true ∧
    LAST_VDIF_SECS_INRE adjCexA < FIRST_VDIF_SECS_INRE adjCexB ∧
    ¬ adjacencySpecClaimed adjCexA adjCexB := by
  decide

/-- C1 (amended): the adjacency predicate returns contiguous exactly under the
    spec's case analysis, with the cross-second case entered whenever a's
    first and last seconds differ (in either direction) rather than only when
    a's first second is strictly earlier; in particular a buffer whose first
    and last seconds are reversed is still matched by the cross-second rules,
    and all remaining pairs are non-contiguous. -/
theorem C1_adjacency :
    ∀ a b : SGPart,
      test_sg_parts_contiguous a b = true ↔ adjacencySpecAmended a b := by
  intro a b
  unfold test_sg_parts_contiguous adjacencySpecAmended
  dsimp only
  split_ifs with h1 h2 h3 h4 <;>
    simp_all [decide_eq_true_iff]

/-- compare_int_descend from scatgat.c: qsort comparator placing larger
    integers first. -/
def compare_int_descend (a b : Int) : Int :=
  if b < a then -1 else if b > a then 1 else 0

/-- compare_sg_part from scatgat.c: order two shards by the
    (secs_inre, df_num_insec) pair of the first frame in their staging
    buffers. -/
def compare_sg_part (a b : SGPart) : Int :=
  let secs_inre_a := FIRST_VDIF_SECS_INRE a
  let secs_inre_b := FIRST_VDIF_SECS_INRE b
  let df_num_insec_a := FIRST_VDIF_DF_NUM_INSEC a
  let df_num_insec_b := FIRST_VDIF_DF_NUM_INSEC b
  if secs_inre_a < secs_inre_b then -1
  else if secs_inre_a > secs_inre_b then 1
  else if df_num_insec_a < df_num_insec_b then -1
  else if df_num_insec_a > df_num_insec_b then 1
  else 0

/-- Timestamp key of a shard's first staged frame. -/
def partKey (p : SGPart) : Nat × Nat :=
  (FIRST_VDIF_SECS_INRE p, FIRST_VDIF_DF_NUM_INSEC p)

/-- Lexicographic order on timestamp keys. -/
def keyLE (x y : Nat × Nat) : Prop :=
  x.1 < y.1 ∨ (x.1 = y.1 ∧ x.2 ≤ y.2)

/-- Strict lexicographic order on timestamp keys. -/
def keyLT (x y : Nat × Nat) : Prop :=
  x.1 < y.1 ∨ (x.1 = y.1 ∧ x.2 < y.2)

theorem compare_sg_part_neg (a b : SGPart) :
    compare_sg_part a b < 0 ↔ keyLT (partKey a) (partKey b) := by
  unfold compare_sg_part partKey keyLT
  dsimp only
  split_ifs <;> simp_all <;> omega

theorem compare_int_descend_nonpos (a b : Int) :
    compare_int_descend a b ≤ 0 ↔ b ≤ a := by
  unfold compare_int_descend
  split_ifs <;> omega

/-- The shard a mapping entry x points at: sgpln->sgprt[x - 1]. -/
def mapPart (pln : SGPlan) (x : Int) : SGPart :=
  pln.sgprt.getD (x.toNat - 1) default

/-- Order on mapping entries induced by the shards they reference. -/
def entryLE (pln : SGPlan) (x y : Int) : Prop :=
  keyLE (partKey (mapPart pln x)) (partKey (mapPart pln y))

/-- Inner loop of the merger's selection sort: position of the first entry of
    the list whose referenced shard has minimal timestamp key (the C loop
    updates idx_min only on strict improvement, hence the first minimum). -/
def selMinIdx (pln : SGPlan) : List Int → Nat
  | [] => 0
  | [_] => 0
  | x :: y :: rest =>
      let j := selMinIdx pln (y :: rest)
      if compare_sg_part (mapPart pln ((y :: rest).getD j 0)) (mapPart pln x) < 0
      then j + 1 else 0

/-- Swap of mapping[0] and mapping[j] (the selection sort's exchange of
    positions ii and idx_min). -/
def swapHead (l : List Int) (j : Nat) : List Int :=
  match j, l with
  | 0, l => l
  | _ + 1, [] => []
  | j + 1, x :: xs => xs.getD j 0 :: (xs.take j ++ x :: xs.drop (j + 1))

/-- Outer loop of the merger's selection sort over the live prefix of the
    mapping: repeatedly swap the first remaining minimum to the front.  The
    fuel argument counts the remaining loop iterations (nLive - ii). -/
def selSortGo (pln : SGPlan) : Nat → List Int → List Int
  | 0, l => l
  | _ + 1, [] => []
  | fuel + 1, x :: xs =>
      let l' := swapHead (x :: xs) (selMinIdx pln (x :: xs))
      l'.headD 0 :: selSortGo pln fuel l'.tail

/-- Continuity walk of the merger: the C loop breaks at the first
    non-contiguous consecutive pair among the live prefix and returns that
    position + 1 (the whole length when no pair fails). -/
def chainCount (pln : SGPlan) : List Int → Nat
  | [] => 1
  | [_] => 1
  | x :: y :: rest =>
      if test_sg_parts_contiguous (mapPart pln x) (mapPart pln y)
      then 1 + chainCount pln (y :: rest) else 1

/-- Initialisation loop of map_sg_parts_contiguous: mapping[i] is i + 1 for a
    live shard (n_frames > 0) and -(i + 1) for a dead one. -/
def mergeMapInit (pln : SGPlan) : List Int :=
  (List.range pln.sgprt.length).map (fun i =>
    if 0 < (pln.sgprt.getD i default).n_frames
    then ((i : Int) + 1) else -((i : Int) + 1))

/-- Number of dead shards counted by the initialisation loop. -/
def deadCount (pln : SGPlan) : Nat :=
  (pln.sgprt.filter (fun p => p.n_frames = 0)).length

/-- The mapping after the qsort (descending) and the selection sort of the
    live prefix by first-frame timestamp.  The C library qsort with
    compare_int_descend is modelled by insertionSort with the equivalent
    total order; the mapping entries are pairwise distinct, so the descending
    rearrangement is unique and any correct sort matches the C behaviour. -/
def mergeSorted (pln : SGPlan) : List Int :=
  let nLive := pln.sgprt.length - deadCount pln
  let m1 := List.insertionSort (· ≥ ·) (mergeMapInit pln)
  selSortGo pln nLive (m1.take nLive) ++ m1.drop nLive

/-- Number of contiguous blocks found by the continuity walk over the live
    prefix of the sorted mapping. -/
def mergeK (pln : SGPlan) : Nat :=
  chainCount pln ((mergeSorted pln).take (pln.sgprt.length - deadCount pln))

/-- Final mapping: entries of the live prefix from position k onward are
    negated; dead entries (already negative) follow unchanged. -/
def mergeFinal (pln : SGPlan) : List Int :=
  (mergeSorted pln).take (mergeK pln) ++
  (((mergeSorted pln).drop (mergeK pln)).take
      (pln.sgprt.length - deadCount pln - mergeK pln)).map (fun x => -x) ++
  (mergeSorted pln).drop (pln.sgprt.length - deadCount pln)

/-- map_sg_parts_contiguous from scatgat.c.  Returns the number of contiguous
    blocks k together with the mapping array. -/
def map_sg_parts_contiguous (pln : SGPlan) : Nat × List Int :=
  if deadCount pln = pln.sgprt.length then (0, mergeMapInit pln)
  else (mergeK pln, mergeFinal pln)

theorem keyLE_refl (x : Nat × Nat) : keyLE x x := by
  unfold keyLE; omega

theorem keyLE_trans {x y z : Nat × Nat} (h1 : keyLE x y) (h2 : keyLE y z) :
    keyLE x z := by
  unfold keyLE at *; omega

theorem not_keyLT (x y : Nat × Nat) : ¬ keyLT x y ↔ keyLE y x := by
  unfold keyLT keyLE; omega

theorem keyLT_keyLE {x y : Nat × Nat} (h : keyLT x y) : keyLE x y := by
  unfold keyLT at h; unfold keyLE; omega

theorem swapHead_length {l : List Int} {j : Nat} (h : j < l.length) :
    (swapHead l j).length = l.length := by
  match j, l with
  | 0, l => rfl
  | j + 1, x :: xs =>
      simp only [swapHead, List.length_cons, List.length_append,
        List.length_take, List.length_drop]
      simp only [List.length_cons] at h
      omega

theorem swapHead_perm {l : List Int} {j : Nat} (h : j < l.length) :
    (swapHead l j).Perm l := by
  match j, l with
  | 0, l => exact List.Perm.refl l
  | j + 1, x :: xs =>
      simp only [List.length_cons, Nat.add_lt_add_iff_right] at h
      show (xs.getD j 0 :: (xs.take j ++ x :: xs.drop (j + 1))).Perm (x :: xs)
      have h1 : (xs.take j ++ x :: xs.drop (j + 1)).Perm
          (x :: (xs.take j ++ xs.drop (j + 1))) := List.perm_middle
      have h4 : (xs.getD j 0 :: (xs.take j ++ xs.drop (j + 1))).Perm
          (xs.take j ++ xs.getD j 0 :: xs.drop (j + 1)) := List.perm_middle.symm
      have h5 : xs.take j ++ xs.getD j 0 :: xs.drop (j + 1) = xs := by
        rw [List.getD_eq_getElem xs 0 h]
        rw [← List.drop_eq_getElem_cons h]
        exact List.take_append_drop j xs
      exact ((h1.cons _).trans (List.Perm.swap _ _ _)).trans ((h5 ▸ h4).cons x)

theorem swapHead_headD {l : List Int} {j : Nat} (h : j < l.length) :
    (swapHead l j).headD 0 = l.getD j 0 := by
  match j, l with
  | 0, l =>
      cases l with
      | nil => simp at h
      | cons x xs => rfl
  | j + 1, x :: xs => rfl

theorem selMinIdx_lt (pln : SGPlan) :
    ∀ (l : List Int), l ≠ [] → selMinIdx pln l < l.length
  | [], h => absurd rfl h
  | [_], _ => by simp [selMinIdx]
  | x :: y :: rest, _ => by
      have ih := selMinIdx_lt pln (y :: rest) (by simp)
      unfold selMinIdx
      dsimp only
      split_ifs
      · simpa using ih
      · simp

theorem selMinIdx_min (pln : SGPlan) :
    ∀ (l : List Int), ∀ e ∈ l,
      keyLE (partKey (mapPart pln (l.getD (selMinIdx pln l) 0)))
        (partKey (mapPart pln e))
  | [], e, he => absurd he (List.not_mem_nil e)
  | [x], e, he => by
      simp only [List.mem_singleton] at he
      subst he
      simp only [selMinIdx, List.getD_cons_zero]
      exact keyLE_refl _
  | x :: y :: rest, e, he => by
      have ih := selMinIdx_min pln (y :: rest)
      unfold selMinIdx
      dsimp only
      split_ifs with hc
      · rw [List.getD_cons_succ]
        rcases List.mem_cons.mp he with rfl | hm
        · exact keyLT_keyLE ((compare_sg_part_neg _ _).mp hc)
        · exact ih e hm
      · rw [List.getD_cons_zero]
        rcases List.mem_cons.mp he with rfl | hm
        · exact keyLE_refl _
        · have hx : keyLE (partKey (mapPart pln e))
              (partKey (mapPart pln ((y :: rest).getD (selMinIdx pln (y :: rest)) 0))) →
              keyLE (partKey (mapPart pln x)) (partKey (mapPart pln e)) → True := fun _ _ => trivial
          have h1 : keyLE (partKey (mapPart pln x))
              (partKey (mapPart pln ((y :: rest).getD (selMinIdx pln (y :: rest)) 0))) :=
            (not_keyLT _ _).mp ((fun hlt => hc ((compare_sg_part_neg _ _).mpr hlt)))
          exact keyLE_trans h1 (ih e hm)

theorem selSortGo_perm (pln : SGPlan) :
    ∀ (fuel : Nat) (l : List Int), l.length ≤ fuel →
      (selSortGo pln fuel l).Perm l
  | 0, l, h => by
      have : l = [] := List.eq_nil_of_length_eq_zero (Nat.le_zero.mp h)
      subst this
      exact List.Perm.refl _
  | fuel + 1, [], _ => List.Perm.refl _
  | fuel + 1, x :: xs, h => by
      have hj : selMinIdx pln (x :: xs) < (x :: xs).length :=
        selMinIdx_lt pln (x :: xs) (by simp)
      have hperm : (swapHead (x :: xs) (selMinIdx pln (x :: xs))).Perm (x :: xs) :=
        swapHead_perm hj
      have hlen : (swapHead (x :: xs) (selMinIdx pln (x :: xs))).length =
          (x :: xs).length := hperm.length_eq
      show ((swapHead (x :: xs) (selMinIdx pln (x :: xs))).headD 0 ::
        selSortGo pln fuel (swapHead (x :: xs) (selMinIdx pln (x :: xs))).tail).Perm (x :: xs)
      rcases hl' : swapHead (x :: xs) (selMinIdx pln (x :: xs)) with _ | ⟨a, t⟩
      · rw [hl'] at hlen; simp at hlen
      · rw [hl'] at hperm hlen
        simp only [List.headD_cons, List.tail_cons]
        have ih := selSortGo_perm pln fuel t (by
          simp only [List.length_cons] at hlen h
          omega)
        exact (ih.cons a).trans hperm

theorem selSortGo_sorted (pln : SGPlan) :
    ∀ (fuel : Nat) (l : List Int), l.length ≤ fuel →
      List.Sorted (entryLE pln) (selSortGo pln fuel l)
  | 0, l, h => by
      have : l = [] := List.eq_nil_of_length_eq_zero (Nat.le_zero.mp h)
      subst this
      exact List.sorted_nil
  | fuel + 1, [], _ => List.sorted_nil
  | fuel + 1, x :: xs, h => by
      have hj : selMinIdx pln (x :: xs) < (x :: xs).length :=
        selMinIdx_lt pln (x :: xs) (by simp)
      have hperm : (swapHead (x :: xs) (selMinIdx pln (x :: xs))).Perm (x :: xs) :=
        swapHead_perm hj
      have hlen : (swapHead (x :: xs) (selMinIdx pln (x :: xs))).length =
          (x :: xs).length := hperm.length_eq
      have hhead : (swapHead (x :: xs) (selMinIdx pln (x :: xs))).headD 0 =
          (x :: xs).getD (selMinIdx pln (x :: xs)) 0 := swapHead_headD hj
      show List.Sorted (entryLE pln)
        ((swapHead (x :: xs) (selMinIdx pln (x :: xs))).headD 0 ::
          selSortGo pln fuel (swapHead (x :: xs) (selMinIdx pln (x :: xs))).tail)
      rcases hl' : swapHead (x :: xs) (selMinIdx pln (x :: xs)) with _ | ⟨a, t⟩
      · rw [hl'] at hlen; simp at hlen
      · rw [hl'] at hperm hlen hhead
        simp only [List.headD_cons, List.tail_cons] at *
        have htl : t.length ≤ fuel := by
          simp only [List.length_cons] at hlen h
          omega
        refine List.sorted_cons.mpr ⟨?_, selSortGo_sorted pln fuel t htl⟩
        intro b hb
        have hbt : b ∈ t := ((selSortGo_perm pln fuel t htl).mem_iff).mp hb
        have hbl : b ∈ x :: xs := hperm.mem_iff.mp (List.mem_cons_of_mem a hbt)
        have := selMinIdx_min pln (x :: xs) b hbl
        rw [← hhead] at this
        exact this

theorem chainCount_pos (pln : SGPlan) (l : List Int) : 1 ≤ chainCount pln l := by
  match l with
  | [] => simp [chainCount]
  | [_] => simp [chainCount]
  | x :: y :: rest =>
      unfold chainCount
      split_ifs <;> omega

theorem chainCount_le (pln : SGPlan) :
    ∀ (l : List Int), l ≠ [] → chainCount pln l ≤ l.length
  | [], h => absurd rfl h
  | [_], _ => by simp [chainCount]
  | x :: y :: rest, _ => by
      have ih := chainCount_le pln (y :: rest) (by simp)
      unfold chainCount
      split_ifs
      · simp only [List.length_cons] at *
        omega
      · simp only [List.length_cons]
        omega

theorem chainCount_chain (pln : SGPlan) :
    ∀ (l : List Int) (i : Nat), i + 1 < chainCount pln l →
      test_sg_parts_contiguous (mapPart pln (l.getD i 0))
        (mapPart pln (l.getD (i + 1) 0)) = true
  | [], i, h => by simp [chainCount] at h
  | [_], i, h => by simp [chainCount] at h
  | x :: y :: rest, i, h => by
      unfold chainCount at h
      split_ifs at h with htest
      · match i with
        | 0 => simpa using htest
        | i + 1 =>
            have := chainCount_chain pln (y :: rest) i (by omega)
            simpa using this
      · omega

theorem getD_range_map {α : Type} (l : List α) (d : α) :
    (List.range l.length).map (fun i => l.getD i d) = l := by
  apply List.ext_getElem
  · simp
  · intro i h1 h2
    simp only [List.getElem_map, List.getElem_range]
    exact List.getD_eq_getElem l d h2

theorem sorted_desc_prefix (l : List Int)
    (hs : List.Sorted (· ≥ ·) l) (hnz : ∀ x ∈ l, x ≠ 0) :
    (∀ i < l.countP (fun x => decide (0 < x)), 0 < l.getD i 0) ∧
    (∀ i, l.countP (fun x => decide (0 < x)) ≤ i → i < l.length → l.getD i 0 < 0) := by
  induction l with
  | nil => simp
  | cons x xs ih =>
      have hx := List.sorted_cons.mp hs
      have ihx := ih hx.2 (fun b hb => hnz b (List.mem_cons_of_mem x hb))
      by_cases hpos : 0 < x
      · have hc : (x :: xs).countP (fun x => decide (0 < x)) =
            xs.countP (fun x => decide (0 < x)) + 1 := by
          rw [List.countP_cons]
          simp [hpos]
        constructor
        · intro i hi
          match i with
          | 0 => simpa using hpos
          | i + 1 =>
              rw [List.getD_cons_succ]
              exact ihx.1 i (by omega)
        · intro i hlo hhi
          match i with
          | 0 => omega
          | i + 1 =>
              rw [List.getD_cons_succ]
              simp only [List.length_cons] at hhi
              exact ihx.2 i (by omega) (by omega)
      · have hneg : x < 0 := by
          have := hnz x (List.mem_cons_self x xs)
          omega
        have hallneg : ∀ b ∈ xs, b < 0 := by
          intro b hb
          have h1 : x ≥ b := hx.1 b hb
          omega
        have hcnt0 : xs.countP (fun x => decide (0 < x)) = 0 := by
          rw [List.countP_eq_zero]
          intro b hb
          simpa using Int.not_lt.mpr (Int.le_of_lt (hallneg b hb))
        have hc : (x :: xs).countP (fun x => decide (0 < x)) = 0 := by
          rw [List.countP_cons]
          simp [hcnt0, Int.not_lt.mpr (Int.le_of_lt hneg)]
        constructor
        · intro i hi
          rw [hc] at hi
          omega
        · intro i _ hhi
          match i with
          | 0 => simpa using hneg
          | i + 1 =>
              rw [List.getD_cons_succ]
              simp only [List.length_cons] at hhi
              have hmem : xs.getD i 0 ∈ xs := by
                rw [List.getD_eq_getElem xs 0 (by omega)]
                exact List.getElem_mem _
              exact hallneg _ hmem

theorem mergeMapInit_length (pln : SGPlan) :
    (mergeMapInit pln).length = pln.sgprt.length := by
  simp [mergeMapInit]

theorem mergeMapInit_nonzero (pln : SGPlan) :
    ∀ x ∈ mergeMapInit pln, x ≠ 0 := by
  intro x hx
  simp only [mergeMapInit, List.mem_map, List.mem_range] at hx
  obtain ⟨i, _, rfl⟩ := hx
  split_ifs <;> omega

theorem mergeMapInit_pos_live (pln : SGPlan) (x : Int)
    (hx : x ∈ mergeMapInit pln) (hp : 0 < x) :
    x.toNat - 1 < pln.sgprt.length ∧
    0 < (pln.sgprt.getD (x.toNat - 1) default).n_frames := by
  simp only [mergeMapInit, List.mem_map, List.mem_range] at hx
  obtain ⟨i, hi, heq⟩ := hx
  by_cases hl : 0 < (pln.sgprt.getD i default).n_frames
  · rw [if_pos hl] at heq
    have : x.toNat - 1 = i := by omega
    rw [this]
    exact ⟨hi, hl⟩
  · rw [if_neg hl] at heq
    omega

theorem mergeMapInit_live_mem (pln : SGPlan) (j : Nat)
    (hj : j < pln.sgprt.length)
    (hl : 0 < (pln.sgprt.getD j default).n_frames) :
    ((j : Int) + 1) ∈ mergeMapInit pln := by
  simp only [mergeMapInit, List.mem_map, List.mem_range]
  exact ⟨j, hj, by rw [if_pos hl]⟩

theorem mergeMapInit_natAbs (pln : SGPlan) :
    (mergeMapInit pln).map Int.natAbs =
      (List.range pln.sgprt.length).map (fun i => i + 1) := by
  unfold mergeMapInit
  rw [List.map_map]
  apply List.map_congr_left
  intro i _
  simp only [Function.comp_apply]
  split_ifs <;> omega

theorem deadCount_le (pln : SGPlan) : deadCount pln ≤ pln.sgprt.length := by
  unfold deadCount
  exact List.length_filter_le _ _

theorem live_add_dead (l : List SGPart) :
    l.countP (fun p => decide (0 < p.n_frames)) +
      (l.filter (fun p => p.n_frames = 0)).length = l.length := by
  induction l with
  | nil => simp
  | cons x xs ih =>
      by_cases hx : 0 < x.n_frames
      · rw [List.countP_cons_of_pos _ _ (by simpa using hx)]
        rw [List.filter_cons_of_neg (by simp; omega)]
        simp only [List.length_cons]
        omega
      · rw [List.countP_cons_of_neg _ _ (by simpa using hx)]
        rw [List.filter_cons_of_pos (by simp; omega)]
        simp only [List.length_cons]
        omega

theorem mergeMapInit_countP (pln : SGPlan) :
    (mergeMapInit pln).countP (fun x => decide (0 < x)) =
      pln.sgprt.length - deadCount pln := by
  have hmap : (mergeMapInit pln).countP (fun x => decide (0 < x)) =
      (List.range pln.sgprt.length).countP
        (fun i => decide (0 < (pln.sgprt.getD i default).n_frames)) := by
    unfold mergeMapInit
    rw [List.countP_map]
    apply List.countP_congr
    intro i _
    by_cases hl : 0 < (pln.sgprt.getD i default).n_frames
    · simp only [Function.comp_apply, if_pos hl, decide_eq_true_eq]
      constructor
      · intro _; exact hl
      · intro _; omega
    · simp only [Function.comp_apply, if_neg hl, decide_eq_true_eq]
      constructor
      · intro h; omega
      · intro h; exact absurd h hl
  have hrange : (List.range pln.sgprt.length).countP
      (fun i => decide (0 < (pln.sgprt.getD i default).n_frames)) =
      pln.sgprt.countP (fun p => decide (0 < p.n_frames)) := by
    conv_rhs => rw [← getD_range_map pln.sgprt default]
    rw [List.countP_map]
    rfl
  have hld := live_add_dead pln.sgprt
  unfold deadCount
  rw [hmap, hrange]
  omega

theorem selSortGo_length_take (pln : SGPlan) :
    (selSortGo pln (pln.sgprt.length - deadCount pln)
      ((List.insertionSort (· ≥ ·) (mergeMapInit pln)).take
        (pln.sgprt.length - deadCount pln))).length =
      pln.sgprt.length - deadCount pln := by
  have hfuel : ((List.insertionSort (· ≥ ·) (mergeMapInit pln)).take
      (pln.sgprt.length - deadCount pln)).length ≤
      pln.sgprt.length - deadCount pln := by
    rw [List.length_take]
    omega
  rw [(selSortGo_perm pln _ _ hfuel).length_eq, List.length_take,
    List.length_insertionSort, mergeMapInit_length]
  omega

theorem mergeSorted_perm (pln : SGPlan) :
    (mergeSorted pln).Perm (mergeMapInit pln) := by
  unfold mergeSorted
  dsimp only
  have hfuel : ((List.insertionSort (· ≥ ·) (mergeMapInit pln)).take
      (pln.sgprt.length - deadCount pln)).length ≤
      pln.sgprt.length - deadCount pln := by
    rw [List.length_take]
    omega
  have h1 := (selSortGo_perm pln (pln.sgprt.length - deadCount pln) _ hfuel).append_right
    ((List.insertionSort (· ≥ ·) (mergeMapInit pln)).drop
      (pln.sgprt.length - deadCount pln))
  rw [List.take_append_drop] at h1
  exact h1.trans (List.perm_insertionSort _ _)

theorem mergeSorted_length (pln : SGPlan) :
    (mergeSorted pln).length = pln.sgprt.length := by
  rw [(mergeSorted_perm pln).length_eq, mergeMapInit_length]

theorem mergeSorted_take_eq (pln : SGPlan) :
    (mergeSorted pln).take (pln.sgprt.length - deadCount pln) =
      selSortGo pln (pln.sgprt.length - deadCount pln)
        ((List.insertionSort (· ≥ ·) (mergeMapInit pln)).take
          (pln.sgprt.length - deadCount pln)) := by
  unfold mergeSorted
  exact List.take_left' (selSortGo_length_take pln)

theorem mergeSorted_drop_eq (pln : SGPlan) :
    (mergeSorted pln).drop (pln.sgprt.length - deadCount pln) =
      (List.insertionSort (· ≥ ·) (mergeMapInit pln)).drop
        (pln.sgprt.length - deadCount pln) := by
  unfold mergeSorted
  exact List.drop_left' (selSortGo_length_take pln)

theorem mergeSorted_take_sorted (pln : SGPlan) :
    List.Sorted (entryLE pln)
      ((mergeSorted pln).take (pln.sgprt.length - deadCount pln)) := by
  rw [mergeSorted_take_eq]
  apply selSortGo_sorted
  rw [List.length_take]
  omega

theorem insertionSort_pos_neg (pln : SGPlan) :
    (∀ i < pln.sgprt.length - deadCount pln,
      0 < (List.insertionSort (· ≥ ·) (mergeMapInit pln)).getD i 0) ∧
    (∀ i, pln.sgprt.length - deadCount pln ≤ i → i < pln.sgprt.length →
      (List.insertionSort (· ≥ ·) (mergeMapInit pln)).getD i 0 < 0) := by
  have hperm := List.perm_insertionSort (α := Int) (· ≥ ·) (mergeMapInit pln)
  have hsorted := List.sorted_insertionSort (α := Int) (· ≥ ·) (mergeMapInit pln)
  have hnz : ∀ x ∈ List.insertionSort (· ≥ ·) (mergeMapInit pln), x ≠ 0 := by
    intro x hx
    exact mergeMapInit_nonzero pln x (hperm.mem_iff.mp hx)
  have hcnt : (List.insertionSort (· ≥ ·) (mergeMapInit pln)).countP
      (fun x => decide (0 < x)) = pln.sgprt.length - deadCount pln := by
    rw [hperm.countP_eq, mergeMapInit_countP]
  have hlen : (List.insertionSort (· ≥ ·) (mergeMapInit pln)).length =
      pln.sgprt.length := by
    rw [List.length_insertionSort, mergeMapInit_length]
  have h := sorted_desc_prefix (List.insertionSort (· ≥ ·) (mergeMapInit pln))
    hsorted hnz
  rw [hcnt] at h
  exact ⟨h.1, fun i h1 h2 => h.2 i h1 (by omega)⟩

theorem mergeSorted_take_pos (pln : SGPlan) :
    ∀ x ∈ (mergeSorted pln).take (pln.sgprt.length - deadCount pln), 0 < x := by
  intro x hx
  rw [mergeSorted_take_eq] at hx
  have hfuel : ((List.insertionSort (· ≥ ·) (mergeMapInit pln)).take
      (pln.sgprt.length - deadCount pln)).length ≤
      pln.sgprt.length - deadCount pln := by
    rw [List.length_take]
    omega
  have hx2 := (selSortGo_perm pln _ _ hfuel).mem_iff.mp hx
  obtain ⟨i, hi, heq⟩ := List.mem_iff_getElem.mp hx2
  rw [List.length_take] at hi
  have hib : i < (List.insertionSort (· ≥ ·) (mergeMapInit pln)).length := by
    rw [List.length_insertionSort, mergeMapInit_length]
    omega
  rw [List.getElem_take] at heq
  have := (insertionSort_pos_neg pln).1 i (by omega)
  rw [List.getD_eq_getElem _ 0 hib] at this
  rw [heq] at this
  exact this

theorem mergeSorted_drop_neg (pln : SGPlan) :
    ∀ x ∈ (mergeSorted pln).drop (pln.sgprt.length - deadCount pln), x < 0 := by
  intro x hx
  rw [mergeSorted_drop_eq] at hx
  obtain ⟨i, hi, heq⟩ := List.mem_iff_getElem.mp hx
  rw [List.length_drop] at hi
  have hib : pln.sgprt.length - deadCount pln + i <
      (List.insertionSort (· ≥ ·) (mergeMapInit pln)).length := by
    omega
  rw [List.getElem_drop] at heq
  have hlen : (List.insertionSort (· ≥ ·) (mergeMapInit pln)).length =
      pln.sgprt.length := by
    rw [List.length_insertionSort, mergeMapInit_length]
  have := (insertionSort_pos_neg pln).2 (pln.sgprt.length - deadCount pln + i)
    (by omega) (by omega)
  rw [List.getD_eq_getElem _ 0 hib] at this
  rw [heq] at this
  exact this

theorem getD_append3_left {a b c : List Int} {i : Nat} (h : i < a.length) :
    (a ++ b ++ c).getD i 0 = a.getD i 0 := by
  simp only [List.getD_eq_getElem?_getD, List.append_assoc]
  rw [List.getElem?_append_left h]

theorem getD_append3_mid {a b c : List Int} {i : Nat} (h1 : a.length ≤ i)
    (h2 : i - a.length < b.length) :
    (a ++ b ++ c).getD i 0 = b.getD (i - a.length) 0 := by
  simp only [List.getD_eq_getElem?_getD, List.append_assoc]
  rw [List.getElem?_append_right h1, List.getElem?_append_left h2]

theorem getD_append3_right {a b c : List Int} {i : Nat}
    (h1 : a.length + b.length ≤ i) :
    (a ++ b ++ c).getD i 0 = c.getD (i - a.length - b.length) 0 := by
  simp only [List.getD_eq_getElem?_getD, List.append_assoc]
  rw [List.getElem?_append_right (by omega), List.getElem?_append_right (by omega)]

theorem map_live_eq (pln : SGPlan) (hne : deadCount pln ≠ pln.sgprt.length) :
    map_sg_parts_contiguous pln = (mergeK pln, mergeFinal pln) := by
  rw [map_sg_parts_contiguous, if_neg hne]

theorem getD_take_lt {l : List Int} {n i : Nat} (h : i < n) :
    (l.take n).getD i 0 = l.getD i 0 := by
  simp only [List.getD_eq_getElem?_getD]
  rw [List.getElem?_take_of_lt h]

theorem getD_drop_plus (l : List Int) (n i : Nat) :
    (l.drop n).getD i 0 = l.getD (n + i) 0 := by
  simp only [List.getD_eq_getElem?_getD]
  rw [List.getElem?_drop]

theorem getD_map_neg {l : List Int} {i : Nat} (h : i < l.length) :
    (l.map (fun x => -x)).getD i 0 = -(l.getD i 0) := by
  rw [List.getD_eq_getElem _ 0 (by simpa using h), List.getD_eq_getElem _ 0 h]
  simp

theorem getD_mem {α : Type} {l : List α} {i : Nat} {d : α} (h : i < l.length) :
    l.getD i d ∈ l := by
  rw [List.getD_eq_getElem _ d h]
  exact List.getElem_mem h

theorem mergeK_pos (pln : SGPlan) : 1 ≤ mergeK pln :=
  chainCount_pos pln _

theorem mergeK_le (pln : SGPlan) :
    mergeK pln ≤ pln.sgprt.length - deadCount pln ∨
      pln.sgprt.length - deadCount pln = 0 := by
  by_cases h0 : pln.sgprt.length - deadCount pln = 0
  · exact Or.inr h0
  · left
    have hdl := deadCount_le pln
    have hlen : ((mergeSorted pln).take (pln.sgprt.length - deadCount pln)).length
        = pln.sgprt.length - deadCount pln := by
      rw [List.length_take, mergeSorted_length]
      omega
    have hne2 : (mergeSorted pln).take (pln.sgprt.length - deadCount pln) ≠ [] := by
      intro h
      rw [h] at hlen
      simp at hlen
      omega
    have := chainCount_le pln _ hne2
    unfold mergeK
    omega

theorem mergeSorted_getD_pos (pln : SGPlan) (i : Nat)
    (hi : i < pln.sgprt.length - deadCount pln) :
    0 < (mergeSorted pln).getD i 0 := by
  have hdl := deadCount_le pln
  have hm2len : (mergeSorted pln).length = pln.sgprt.length := mergeSorted_length pln
  have heq : (mergeSorted pln).getD i 0 =
      ((mergeSorted pln).take (pln.sgprt.length - deadCount pln)).getD i 0 :=
    (getD_take_lt hi).symm
  rw [heq]
  apply mergeSorted_take_pos pln
  apply getD_mem
  rw [List.length_take]
  omega

theorem mergeK_le_live (pln : SGPlan) (hne : deadCount pln ≠ pln.sgprt.length) :
    mergeK pln ≤ pln.sgprt.length - deadCount pln := by
  have hdl := deadCount_le pln
  rcases mergeK_le pln with h | h
  · exact h
  · omega

theorem mergeFinal_length (pln : SGPlan) (hne : deadCount pln ≠ pln.sgprt.length) :
    (mergeFinal pln).length = pln.sgprt.length := by
  unfold mergeFinal
  have hdl := deadCount_le pln
  have hm2len : (mergeSorted pln).length = pln.sgprt.length := mergeSorted_length pln
  have hk := mergeK_pos pln
  have hk2 := mergeK_le_live pln hne
  simp only [List.length_append, List.length_take, List.length_map,
    List.length_drop]
  omega

theorem mergeFinal_getD_left (pln : SGPlan) (i : Nat) (hi : i < mergeK pln)
    (hin : i < pln.sgprt.length) :
    (mergeFinal pln).getD i 0 = (mergeSorted pln).getD i 0 := by
  unfold mergeFinal
  have hm2len : (mergeSorted pln).length = pln.sgprt.length := mergeSorted_length pln
  rw [getD_append3_left (by rw [List.length_take]; omega)]
  exact getD_take_lt hi

theorem mergeFinal_getD_mid (pln : SGPlan) (i : Nat) (h1 : mergeK pln ≤ i)
    (h2 : i < pln.sgprt.length - deadCount pln) :
    (mergeFinal pln).getD i 0 = -((mergeSorted pln).getD i 0) := by
  unfold mergeFinal
  have hdl := deadCount_le pln
  have hm2len : (mergeSorted pln).length = pln.sgprt.length := mergeSorted_length pln
  have hk2 : mergeK pln ≤ pln.sgprt.length - deadCount pln := by
    rcases mergeK_le pln with h | h
    · exact h
    · omega
  have hlenA : ((mergeSorted pln).take (mergeK pln)).length = mergeK pln := by
    rw [List.length_take]
    omega
  have hlenB : (((mergeSorted pln).drop (mergeK pln)).take
      (pln.sgprt.length - deadCount pln - mergeK pln)).length =
      pln.sgprt.length - deadCount pln - mergeK pln := by
    rw [List.length_take, List.length_drop]
    omega
  rw [getD_append3_mid (by omega) (by rw [List.length_map, hlenB, hlenA]; omega)]
  rw [hlenA]
  rw [getD_map_neg (by rw [hlenB]; omega)]
  rw [getD_take_lt (by omega), getD_drop_plus]
  have hidx : mergeK pln + (i - mergeK pln) = i := by omega
  rw [hidx]

theorem mergeFinal_getD_right (pln : SGPlan) (hne : deadCount pln ≠ pln.sgprt.length)
    (i : Nat) (h1 : pln.sgprt.length - deadCount pln ≤ i) :
    (mergeFinal pln).getD i 0 =
      ((mergeSorted pln).drop (pln.sgprt.length - deadCount pln)).getD
        (i - (pln.sgprt.length - deadCount pln)) 0 := by
  unfold mergeFinal
  have hdl := deadCount_le pln
  have hm2len : (mergeSorted pln).length = pln.sgprt.length := mergeSorted_length pln
  have hk2 := mergeK_le_live pln hne
  have hlenA : ((mergeSorted pln).take (mergeK pln)).length = mergeK pln := by
    rw [List.length_take]
    omega
  have hlenB : ((((mergeSorted pln).drop (mergeK pln)).take
      (pln.sgprt.length - deadCount pln - mergeK pln)).map (fun x => -x)).length =
      pln.sgprt.length - deadCount pln - mergeK pln := by
    rw [List.length_map, List.length_take, List.length_drop]
    omega
  rw [getD_append3_right (by rw [hlenA, hlenB]; omega)]
  rw [hlenA, hlenB]
  congr 1
  omega

theorem mergeFinal_chain (pln : SGPlan) (hne : deadCount pln ≠ pln.sgprt.length)
    (i : Nat) (h : i + 1 < mergeK pln) :
    test_sg_parts_contiguous (mapPart pln ((mergeFinal pln).getD i 0))
      (mapPart pln ((mergeFinal pln).getD (i + 1) 0)) = true := by
  have hk2 := mergeK_le_live pln hne
  have hdl := deadCount_le pln
  have hm2len : (mergeSorted pln).length = pln.sgprt.length := mergeSorted_length pln
  have hchain := chainCount_chain pln
    ((mergeSorted pln).take (pln.sgprt.length - deadCount pln)) i h
  rw [getD_take_lt (by omega), getD_take_lt (by omega)] at hchain
  rw [mergeFinal_getD_left pln i (by omega) (by omega),
      mergeFinal_getD_left pln (i + 1) (by omega) (by omega)]
  exact hchain

theorem mergeFinal_natAbs_perm (pln : SGPlan)
    (hne : deadCount pln ≠ pln.sgprt.length) :
    ((mergeFinal pln).map Int.natAbs).Perm
      ((List.range pln.sgprt.length).map (fun i => i + 1)) := by
  have hdl := deadCount_le pln
  have hm2len : (mergeSorted pln).length = pln.sgprt.length := mergeSorted_length pln
  have hk2 := mergeK_le_live pln hne
  have heq : (mergeFinal pln).map Int.natAbs = (mergeSorted pln).map Int.natAbs := by
    unfold mergeFinal
    rw [List.map_append, List.map_append, List.map_map]
    have hcomp : Int.natAbs ∘ (fun x : Int => -x) = Int.natAbs := by
      funext x
      exact Int.natAbs_neg x
    rw [hcomp]
    rw [← List.map_append, ← List.map_append]
    congr 1
    have hdd : ((mergeSorted pln).drop (mergeK pln)).drop
        (pln.sgprt.length - deadCount pln - mergeK pln) =
        (mergeSorted pln).drop (pln.sgprt.length - deadCount pln) := by
      rw [List.drop_drop]
      congr 1
      omega
    rw [List.append_assoc, ← hdd, List.take_append_drop, List.take_append_drop]
  rw [heq]
  have hperm := ((mergeSorted_perm pln).map Int.natAbs)
  rw [mergeMapInit_natAbs pln] at hperm
  exact hperm

theorem mergeFinal_pos_live (pln : SGPlan)
    (hne : deadCount pln ≠ pln.sgprt.length) (i : Nat) (hi : i < mergeK pln) :
    0 < (mergeFinal pln).getD i 0 ∧
    ((mergeFinal pln).getD i 0).toNat - 1 < pln.sgprt.length ∧
    0 < (pln.sgprt.getD (((mergeFinal pln).getD i 0).toNat - 1)
          default).n_frames := by
  have hk2 := mergeK_le_live pln hne
  have hdl := deadCount_le pln
  have hm2len : (mergeSorted pln).length = pln.sgprt.length := mergeSorted_length pln
  rw [mergeFinal_getD_left pln i hi (by omega)]
  have hpos := mergeSorted_getD_pos pln i (by omega)
  have hmem : (mergeSorted pln).getD i 0 ∈ mergeMapInit pln :=
    (mergeSorted_perm pln).mem_iff.mp (getD_mem (by omega))
  have hlive := mergeMapInit_pos_live pln _ hmem hpos
  exact ⟨hpos, hlive.1, hlive.2⟩

theorem mergeFinal_neg (pln : SGPlan) (hne : deadCount pln ≠ pln.sgprt.length)
    (i : Nat) (h1 : mergeK pln ≤ i) (h2 : i < pln.sgprt.length) :
    (mergeFinal pln).getD i 0 < 0 := by
  have hdl := deadCount_le pln
  have hm2len : (mergeSorted pln).length = pln.sgprt.length := mergeSorted_length pln
  by_cases hmid : i < pln.sgprt.length - deadCount pln
  · rw [mergeFinal_getD_mid pln i h1 hmid]
    have := mergeSorted_getD_pos pln i hmid
    omega
  · rw [mergeFinal_getD_right pln hne i (by omega)]
    apply mergeSorted_drop_neg pln
    apply getD_mem
    rw [List.length_drop, mergeSorted_length]
    omega

theorem mergeFinal_take_sorted (pln : SGPlan)
    (hne : deadCount pln ≠ pln.sgprt.length) :
    List.Sorted (entryLE pln) ((mergeFinal pln).take (mergeK pln)) := by
  have hdl := deadCount_le pln
  have hm2len : (mergeSorted pln).length = pln.sgprt.length := mergeSorted_length pln
  have hk2 := mergeK_le_live pln hne
  have htake : (mergeFinal pln).take (mergeK pln) =
      (mergeSorted pln).take (mergeK pln) := by
    unfold mergeFinal
    rw [List.append_assoc]
    exact List.take_left' (by rw [List.length_take]; omega)
  rw [htake]
  have hsub : (mergeSorted pln).take (mergeK pln) =
      ((mergeSorted pln).take (pln.sgprt.length - deadCount pln)).take
        (mergeK pln) := by
    rw [List.take_take, Nat.min_eq_left hk2]
  rw [hsub]
  exact List.Pairwise.sublist (List.take_sublist _ _) (mergeSorted_take_sorted pln)

theorem mergeFinal_min_first (pln : SGPlan)
    (hne : deadCount pln ≠ pln.sgprt.length) (j : Nat)
    (hj : j < pln.sgprt.length)
    (hlive : 0 < (pln.sgprt.getD j default).n_frames) :
    keyLE (partKey (mapPart pln ((mergeFinal pln).getD 0 0)))
      (partKey (pln.sgprt.getD j default)) := by
  have hdl := deadCount_le pln
  have hm2len : (mergeSorted pln).length = pln.sgprt.length := mergeSorted_length pln
  have hk1 := mergeK_pos pln
  have hk2 := mergeK_le_live pln hne
  have h0 : (mergeFinal pln).getD 0 0 = (mergeSorted pln).getD 0 0 :=
    mergeFinal_getD_left pln 0 hk1 (by omega)
  have hmemInit : ((j : Int) + 1) ∈ mergeMapInit pln :=
    mergeMapInit_live_mem pln j hj hlive
  have hmemM2 : ((j : Int) + 1) ∈ mergeSorted pln :=
    (mergeSorted_perm pln).mem_iff.mpr hmemInit
  have hsplit : mergeSorted pln =
      (mergeSorted pln).take (pln.sgprt.length - deadCount pln) ++
      (mergeSorted pln).drop (pln.sgprt.length - deadCount pln) :=
    (List.take_append_drop _ _).symm
  have hmemTake : ((j : Int) + 1) ∈
      (mergeSorted pln).take (pln.sgprt.length - deadCount pln) := by
    rw [hsplit] at hmemM2
    rcases List.mem_append.mp hmemM2 with h | h
    · exact h
    · exfalso
      have := mergeSorted_drop_neg pln _ h
      omega
  have hmp : mapPart pln ((j : Int) + 1) = pln.sgprt.getD j default := by
    unfold mapPart
    have hidx : ((j : Int) + 1).toNat - 1 = j := by omega
    rw [hidx]
  rcases hcons : (mergeSorted pln).take (pln.sgprt.length - deadCount pln)
    with _ | ⟨hd, tl⟩
  · rw [hcons] at hmemTake
    simp at hmemTake
  · have hsorted := mergeSorted_take_sorted pln
    rw [hcons] at hsorted hmemTake
    have hgd : (mergeSorted pln).getD 0 0 = hd := by
      have ht : ((mergeSorted pln).take (pln.sgprt.length - deadCount pln)).getD 0 0 =
          (mergeSorted pln).getD 0 0 := getD_take_lt (by omega)
      rw [hcons] at ht
      simpa using ht.symm
    rcases List.mem_cons.mp hmemTake with heq | htl
    · rw [h0, hgd, ← heq, hmp]
      exact keyLE_refl _
    · have hrel := List.rel_of_sorted_cons hsorted _ htl
      rw [h0, hgd]
      unfold entryLE at hrel
      rw [hmp] at hrel
      exact hrel

theorem map_dead_eq (pln : SGPlan) (hd : deadCount pln = pln.sgprt.length) :
    map_sg_parts_contiguous pln = (0, mergeMapInit pln) := by
  rw [map_sg_parts_contiguous, if_pos hd]

theorem allDead_of_deadCount (pln : SGPlan)
    (hd : deadCount pln = pln.sgprt.length) :
    ∀ p ∈ pln.sgprt, p.n_frames = 0 := by
  intro p hp
  have := List.filter_length_eq_length.mp hd p hp
  simpa using this

theorem deadCount_of_allDead (pln : SGPlan)
    (hall : ∀ p ∈ pln.sgprt, p.n_frames = 0) :
    deadCount pln = pln.sgprt.length := by
  unfold deadCount
  rw [List.filter_length_eq_length.mpr]
  intro p hp
  simpa using hall p hp

theorem mergeMapInit_getD_neg_dead (pln : SGPlan)
    (hall : ∀ p ∈ pln.sgprt, p.n_frames = 0) (i : Nat)
    (hi : i < pln.sgprt.length) :
    (mergeMapInit pln).getD i 0 < 0 := by
  have hlen : i < (mergeMapInit pln).length := by
    rw [mergeMapInit_length]
    exact hi
  rw [List.getD_eq_getElem _ 0 hlen]
  unfold mergeMapInit
  simp only [List.getElem_map, List.getElem_range]
  have hdead : (pln.sgprt.getD i default).n_frames = 0 :=
    hall _ (getD_mem hi)
  rw [if_neg (by omega)]
  omega

/-- C2: the contiguity merger produces a mapping of length n_shards whose
    first k entries are positive 1-based indices of live shards, sorted
    ascending by the (secs, frame) key of their first staged frame and
    chained by the adjacency predicate starting from the earliest live shard;
    every entry from position k on is negative, the magnitudes of the whole
    mapping are a permutation of 1..n_shards, and the function returns k,
    returning 0 when every shard is dead. -/
theorem C2_merger_mapping (pln : SGPlan) :
    ((map_sg_parts_contiguous pln).2).length = pln.sgprt.length ∧
    ((map_sg_parts_contiguous pln).2.map Int.natAbs).Perm
      ((List.range pln.sgprt.length).map (fun i => i + 1)) ∧
    (∀ i < (map_sg_parts_contiguous pln).1,
      0 < (map_sg_parts_contiguous pln).2.getD i 0 ∧
      0 < (pln.sgprt.getD
            (((map_sg_parts_contiguous pln).2.getD i 0).toNat - 1)
            default).n_frames) ∧
    List.Sorted (entryLE pln)
      ((map_sg_parts_contiguous pln).2.take (map_sg_parts_contiguous pln).1) ∧
    (∀ i, i + 1 < (map_sg_parts_contiguous pln).1 →
      test_sg_parts_contiguous
        (mapPart pln ((map_sg_parts_contiguous pln).2.getD i 0))
        (mapPart pln ((map_sg_parts_contiguous pln).2.getD (i + 1) 0)) = true) ∧
    (∀ i, (map_sg_parts_contiguous pln).1 ≤ i → i < pln.sgprt.length →
      (map_sg_parts_contiguous pln).2.getD i 0 < 0) ∧
    ((∀ p ∈ pln.sgprt, p.n_frames = 0) → (map_sg_parts_contiguous pln).1 = 0) ∧
    (∀ j < pln.sgprt.length, 0 < (pln.sgprt.getD j default).n_frames →
      1 ≤ (map_sg_parts_contiguous pln).1 ∧
      keyLE (partKey (mapPart pln ((map_sg_parts_contiguous pln).2.getD 0 0)))
        (partKey (pln.sgprt.getD j default))) := by
  by_cases hdead : deadCount pln = pln.sgprt.length
  · rw [map_dead_eq pln hdead]
    have hall := allDead_of_deadCount pln hdead
    refine ⟨mergeMapInit_length pln, ?_, ?_, ?_, ?_, ?_, ?_, ?_⟩
    · rw [mergeMapInit_natAbs pln]
    · intro i hi
      simp at hi
    · simp [List.sorted_nil]
    · intro i hi
      simp at hi
    · intro i _ hi
      exact mergeMapInit_getD_neg_dead pln hall i hi
    · intro _
      rfl
    · intro j hj hlive
      exfalso
      have := hall (pln.sgprt.getD j default) (getD_mem (d := default) hj)
      omega
  · rw [map_live_eq pln hdead]
    refine ⟨mergeFinal_length pln hdead, mergeFinal_natAbs_perm pln hdead,
      ?_, mergeFinal_take_sorted pln hdead, ?_, ?_, ?_, ?_⟩
    · intro i hi
      have h := mergeFinal_pos_live pln hdead i hi
      exact ⟨h.1, h.2.2⟩
    · intro i hi
      exact mergeFinal_chain pln hdead i hi
    · intro i h1 h2
      exact mergeFinal_neg pln hdead i h1 h2
    · intro hall
      exact absurd (deadCount_of_allDead pln hall) hdead
    · intro j hj hlive
      exact ⟨mergeK_pos pln, mergeFinal_min_first pln hdead j hj hlive⟩

/-- Block-by-index packet access of the external SG access layer
    (sg_pkt_by_blk): out of the repository, modelled by the blocks field. -/
def sg_pkt_by_blk (sgi : SGInfo) (iblock : Nat) : List VDIFFrame :=
  sgi.blocks.getD iblock []

/-- clear_sg_part_buffer from scatgat.c: free the staged buffer and reset the
    frame counter. -/
def clear_sg_part_buffer (sgprt : SGPart) : SGPart :=
  { sgprt with n_frames := 0, data_buf := [] }

/-- sgthread_read_block from scatgat.c: when the shard's own block counter is
    in range, fetch that block into staging and record its frame count. -/
def sgthread_read_block (sgprt : SGPart) : SGPart :=
  if sgprt.iblock < sgprt.sgi.sg_total_blks then
    let blk := sg_pkt_by_blk sgprt.sgi sgprt.iblock
    { sgprt with n_frames := blk.length, data_buf := blk }
  else sgprt

/-- One shard's part of the launch and join loops of
    read_next_block_vdif_frames: a reader is spawned only when staging is
    empty and blocks remain, and after the join the block counter is
    incremented exactly when the worker filled staging.  Workers touch only
    their own shard, so the parallel fan-out/fan-in is this per-shard map. -/
def read_fetch_one (sgprt : SGPart) : SGPart :=
  if sgprt.n_frames = 0 ∧ sgprt.iblock < sgprt.sgi.sg_total_blks then
    let q := sgthread_read_block sgprt
    if 0 < q.n_frames then { q with iblock := q.iblock + 1 } else q
  else sgprt

/-- Launch and join phases of read_next_block_vdif_frames over all shards. -/
def read_fetch_phase (pln : SGPlan) : SGPlan :=
  { pln with sgprt := pln.sgprt.map read_fetch_one }

/-- Copy loop of read_next_block_vdif_frames: append the staged frames of
    each mapped shard (in mapping order) to the output and clear its
    staging. -/
def read_gather : SGPlan → List Int → SGPlan × List VDIFFrame × Nat
  | pln, [] => (pln, [], 0)
  | pln, x :: rest =>
      let idx := x.toNat - 1
      let p := pln.sgprt.getD idx default
      let pln2 : SGPlan :=
        { pln with sgprt := pln.sgprt.set idx (clear_sg_part_buffer p) }
      let r := read_gather pln2 rest
      (r.1, p.data_buf.take p.n_frames ++ r.2.1, p.n_frames + r.2.2)

/-- read_next_block_vdif_frames from scatgat.c.  Returns the updated plan,
    the emitted frame buffer and the return value (frame count, 0 when no
    contiguous blocks, -1 on mode mismatch). -/
def read_next_block_vdif_frames (pln : SGPlan) : SGPlan × List VDIFFrame × Int :=
  if pln.sgm ≠ SGMode.read then (pln, [], -1)
  else
    let pln1 := read_fetch_phase pln
    let r := map_sg_parts_contiguous pln1
    if r.1 = 0 then (pln1, [], 0)
    else
      let g := read_gather pln1 (r.2.take r.1)
      (g.1, g.2.1, (g.2.2 : Int))

/-- read_block_vdif_frames from scatgat.c.  The C code passes each SGPart to
    sgthread_read_block, which reads the shard's own iblock field: the
    iblock argument of this function is never consulted.  The join loop
    concatenates the staged frames of every shard that read a non-empty
    block, in shard order, without touching block counters or staging. -/
def read_block_vdif_frames (pln : SGPlan) (iblock : Nat) :
    SGPlan × List VDIFFrame × Int :=
  if pln.sgm ≠ SGMode.read then (pln, [], -1)
  else
    let pln1 : SGPlan := { pln with sgprt := pln.sgprt.map sgthread_read_block }
    (pln1, (pln1.sgprt.map (fun p => p.data_buf.take p.n_frames)).flatten,
     (Int.ofNat (pln1.sgprt.map (fun p => p.n_frames)).sum))

theorem read_gather_iblock (l : List Int) (pln : SGPlan) (i : Nat) :
    (((read_gather pln l).1).sgprt.getD i default).iblock =
      (pln.sgprt.getD i default).iblock := by
  induction l generalizing pln with
  | nil => rfl
  | cons x rest ih =>
      rw [read_gather]
      dsimp only
      rw [ih]
      rcases Nat.lt_or_ge i pln.sgprt.length with hlt | hge
      · by_cases hij : x.toNat - 1 = i
        · rw [hij]
          simp only [List.getD_eq_getElem?_getD, List.getElem?_set, if_pos rfl,
            if_pos hlt]
          simp [clear_sg_part_buffer]
        · simp only [List.getD_eq_getElem?_getD, List.getElem?_set_ne hij]
      · simp only [List.getD_eq_getElem?_getD]
        rw [List.getElem?_eq_none (by simpa using hge),
          List.getElem?_eq_none hge]

theorem read_fetch_phase_getD (pln : SGPlan) (i : Nat)
    (hi : i < pln.sgprt.length) :
    (read_fetch_phase pln).sgprt.getD i default =
      read_fetch_one (pln.sgprt.getD i default) := by
  unfold read_fetch_phase
  simp only [List.getD_eq_getElem?_getD]
  rw [List.getElem?_map, List.getElem?_eq_getElem hi]
  rfl

theorem read_fetch_one_iblock (p : SGPart) :
    (read_fetch_one p).iblock =
      p.iblock + (if p.n_frames = 0 ∧ p.iblock < p.sgi.sg_total_blks ∧
        0 < (sg_pkt_by_blk p.sgi p.iblock).length then 1 else 0) := by
  unfold read_fetch_one sgthread_read_block
  by_cases h1 : p.n_frames = 0 ∧ p.iblock < p.sgi.sg_total_blks
  · rw [if_pos h1]
    dsimp only
    rw [if_pos h1.2]
    dsimp only
    by_cases h3 : 0 < (sg_pkt_by_blk p.sgi p.iblock).length
    · rw [if_pos h3, if_pos ⟨h1.1, h1.2, h3⟩]
    · rw [if_neg h3, if_neg (by tauto)]
      simp
  · rw [if_neg h1, if_neg (by tauto)]
    simp

/-- C3: in a read-step call on a read-mode plan, a shard's block counter is
    incremented exactly when a worker was spawned for it (staging empty and
    blocks remaining) and that worker produced frames (the fetched block is
    non-empty); shards left alone with retained staging and spawned workers
    that read zero frames leave the counter unchanged. -/
theorem C3_block_index_increment (pln : SGPlan) (h : pln.sgm = SGMode.read)
    (i : Nat) (hi : i < pln.sgprt.length) :
    ((read_next_block_vdif_frames pln).1.sgprt.getD i default).iblock =
      (pln.sgprt.getD i default).iblock +
      (if (pln.sgprt.getD i default).n_frames = 0 ∧
          (pln.sgprt.getD i default).iblock <
            (pln.sgprt.getD i default).sgi.sg_total_blks ∧
          0 < (sg_pkt_by_blk (pln.sgprt.getD i default).sgi
                (pln.sgprt.getD i default).iblock).length
       then 1 else 0) := by
  have hplan : ((read_next_block_vdif_frames pln).1.sgprt.getD i default).iblock =
      ((read_fetch_phase pln).sgprt.getD i default).iblock := by
    rw [read_next_block_vdif_frames]
    rw [if_neg (by simp [h])]
    dsimp only
    split_ifs with hk
    · rfl
    · exact read_gather_iblock _ _ i
  rw [hplan, read_fetch_phase_getD pln i hi, read_fetch_one_iblock]

/-- Concrete read-mode plan with one shard holding a single one-frame block:
    used to instantiate the read-step theorems. -/
def c3Sgi : SGInfo :=
  ⟨⟨1, 0, 0, 0⟩, 8, 0, 7, 0, 0, 1, 1, [[⟨7, 0, 0, 2⟩]], true, []⟩

def c3Plan : SGPlan :=
  ⟨SGMode.read, [⟨c3Sgi, 0, [], 0⟩]⟩

theorem C3_block_index_increment_witness :
    c3Plan.sgm = SGMode.read ∧ 0 < c3Plan.sgprt.length ∧
    ((read_next_block_vdif_frames c3Plan).1.sgprt.getD 0 default).iblock =
      (c3Plan.sgprt.getD 0 default).iblock +
      (if (c3Plan.sgprt.getD 0 default).n_frames = 0 ∧
          (c3Plan.sgprt.getD 0 default).iblock <
            (c3Plan.sgprt.getD 0 default).sgi.sg_total_blks ∧
          0 < (sg_pkt_by_blk (c3Plan.sgprt.getD 0 default).sgi
                (c3Plan.sgprt.getD 0 default).iblock).length
       then 1 else 0) :=
  ⟨rfl, by decide, C3_block_index_increment c3Plan rfl 0 (by decide)⟩

/-- C10: whenever at least one shard is live when the merger runs (after the
    fetch phase of a read step on a read-mode plan), the merger returns
    k >= 1, and the read step emits at least the staged block of the
    earliest live shard: the output buffer begins with that shard's staged
    frames and the returned frame count is at least its frame count.  A
    buffer retained as non-adjacent earlier is therefore emitted as soon as
    it becomes the earliest live block, even with no adjacent neighbour. -/
theorem C10_earliest_live_emitted (pln : SGPlan) (h : pln.sgm = SGMode.read)
    (hlive : ∃ p ∈ (read_fetch_phase pln).sgprt, 0 < p.n_frames) :
    1 ≤ (map_sg_parts_contiguous (read_fetch_phase pln)).1 ∧
    ∃ j < (read_fetch_phase pln).sgprt.length,
      0 < ((read_fetch_phase pln).sgprt.getD j default).n_frames ∧
      (∀ j2 < (read_fetch_phase pln).sgprt.length,
        0 < ((read_fetch_phase pln).sgprt.getD j2 default).n_frames →
        keyLE (partKey ((read_fetch_phase pln).sgprt.getD j default))
          (partKey ((read_fetch_phase pln).sgprt.getD j2 default))) ∧
      (∃ rest, (read_next_block_vdif_frames pln).2.1 =
        ((read_fetch_phase pln).sgprt.getD j default).data_buf.take
          ((read_fetch_phase pln).sgprt.getD j default).n_frames ++ rest) ∧
      ((((read_fetch_phase pln).sgprt.getD j default).n_frames : Int) ≤
        (read_next_block_vdif_frames pln).2.2) := by
  set pln1 := read_fetch_phase pln with hpln1
  have hne : deadCount pln1 ≠ pln1.sgprt.length := by
    intro hd
    obtain ⟨p, hp, hnf⟩ := hlive
    have := allDead_of_deadCount pln1 hd p hp
    omega
  have hk1 := mergeK_pos pln1
  have hmap := map_live_eq pln1 hne
  have hm3len : (mergeFinal pln1).length = pln1.sgprt.length :=
    mergeFinal_length pln1 hne
  have hread : read_next_block_vdif_frames pln =
      ((read_gather pln1 ((mergeFinal pln1).take (mergeK pln1))).1,
       (read_gather pln1 ((mergeFinal pln1).take (mergeK pln1))).2.1,
       ((read_gather pln1 ((mergeFinal pln1).take (mergeK pln1))).2.2 : Int)) := by
    rw [read_next_block_vdif_frames, if_neg (by simp [h])]
    dsimp only
    rw [← hpln1, hmap]
    rw [if_neg (by omega)]
  constructor
  · rw [hmap]
    exact hk1
  · have hfl := mergeFinal_pos_live pln1 hne 0 hk1
    refine ⟨((mergeFinal pln1).getD 0 0).toNat - 1, hfl.2.1, hfl.2.2, ?_, ?_, ?_⟩
    · intro j2 hj2 hlive2
      have hmin := mergeFinal_min_first pln1 hne j2 hj2 hlive2
      simpa [mapPart] using hmin
    · rcases hm3 : mergeFinal pln1 with _ | ⟨x0, restm⟩
      · rw [hm3] at hm3len
        have : pln1.sgprt.length = 0 := by
          simpa using hm3len.symm
        omega
      · have htake : (mergeFinal pln1).take (mergeK pln1) =
            x0 :: restm.take (mergeK pln1 - 1) := by
          rw [hm3]
          rcases hk : mergeK pln1 with _ | k
          · omega
          · rw [List.take_succ_cons]
            simp
        rw [hread]
        dsimp only
        rw [htake, read_gather]
        dsimp only
        simp only [List.getD_cons_zero]
        exact ⟨_, rfl⟩
    · rcases hm3 : mergeFinal pln1 with _ | ⟨x0, restm⟩
      · rw [hm3] at hm3len
        have : pln1.sgprt.length = 0 := by
          simpa using hm3len.symm
        omega
      · have htake : (mergeFinal pln1).take (mergeK pln1) =
            x0 :: restm.take (mergeK pln1 - 1) := by
          rw [hm3]
          rcases hk : mergeK pln1 with _ | k
          · omega
          · rw [List.take_succ_cons]
            simp
        rw [hread]
        dsimp only
        rw [htake, read_gather]
        dsimp only
        simp only [List.getD_cons_zero]
        push_cast
        omega

theorem C10_earliest_live_emitted_witness :
    c3Plan.sgm = SGMode.read ∧
    (∃ p ∈ (read_fetch_phase c3Plan).sgprt, 0 < p.n_frames) ∧
    (1 ≤ (map_sg_parts_contiguous (read_fetch_phase c3Plan)).1 ∧
     ∃ j < (read_fetch_phase c3Plan).sgprt.length,
       0 < ((read_fetch_phase c3Plan).sgprt.getD j default).n_frames ∧
       (∀ j2 < (read_fetch_phase c3Plan).sgprt.length,
         0 < ((read_fetch_phase c3Plan).sgprt.getD j2 default).n_frames →
         keyLE (partKey ((read_fetch_phase c3Plan).sgprt.getD j default))
           (partKey ((read_fetch_phase c3Plan).sgprt.getD j2 default))) ∧
       (∃ rest, (read_next_block_vdif_frames c3Plan).2.1 =
         ((read_fetch_phase c3Plan).sgprt.getD j default).data_buf.take
           ((read_fetch_phase c3Plan).sgprt.getD j default).n_frames ++ rest) ∧
       ((((read_fetch_phase c3Plan).sgprt.getD j default).n_frames : Int) ≤
         (read_next_block_vdif_frames c3Plan).2.2)) :=
  ⟨rfl, by decide, C10_earliest_live_emitted c3Plan rfl (by decide)⟩

/-- Read-mode plan whose single shard has two one-frame blocks and has
    already advanced its own block counter to 1. -/
def c6Sgi : SGInfo :=
  ⟨⟨1, 0, 0, 0⟩, 8, 0, 7, 0, 0, 2, 1,
   [[⟨7, 0, 0, 2⟩], [⟨8, 0, 0, 2⟩]], true, []⟩

def c6Plan : SGPlan :=
  ⟨SGMode.read, [⟨c6Sgi, 1, [], 0⟩]⟩

/-- C6 (code bug): read_block_vdif_frames never consults its iblock
    argument; the spawned readers fetch each shard's own next block.  On
    c6Plan, requesting block 0 returns the frames of block 1 (the shard's
    own counter), not block 0. -/
theorem C6_read_block_ignores_index :
    (read_block_vdif_frames c6Plan 0).2.1 = [⟨8, 0, 0, 2⟩] ∧
    (read_block_vdif_frames c6Plan 0).2.1 ≠
      sg_pkt_by_blk c6Sgi 0 ∧
    (read_block_vdif_frames c6Plan 0).2.2 = 1 := by
  decide

/-- compare_sg_info from scatgat.c: order SGInfo records by the timestamp
    (first_secs, first_frame) of the first frame in the file. -/
def compare_sg_info (a b : SGInfo) : Int :=
  if a.first_secs < b.first_secs then -1
  else if a.first_secs > b.first_secs then 1
  else if a.first_frame < b.first_frame then -1
  else if a.first_frame > b.first_frame then 1
  else 0

/-- Non-strict order decided by compare_sg_info, the qsort comparator of
    make_sg_read_plan. -/
def sg_info_le (a b : SGInfo) : Prop :=
  compare_sg_info a b ≤ 0

theorem sg_info_le_iff (a b : SGInfo) :
    sg_info_le a b ↔
      a.first_secs < b.first_secs ∨
      (a.first_secs = b.first_secs ∧ a.first_frame ≤ b.first_frame) := by
  unfold sg_info_le compare_sg_info
  split_ifs <;> simp_all <;> omega

instance : DecidableRel sg_info_le := fun a b => by
  unfold sg_info_le compare_sg_info
  infer_instance

instance : IsTotal SGInfo sg_info_le :=
  ⟨by
    intro a b
    rw [sg_info_le_iff, sg_info_le_iff]
    omega⟩

instance : IsTrans SGInfo sg_info_le :=
  ⟨by
    intro a b c hab hbc
    rw [sg_info_le_iff] at *
    omega⟩

/-- init_sg_part from scatgat.c: deep copy of the SGInfo with block counter
    zero, no staging buffer and no frames. -/
def init_sg_part (sgi : SGInfo) : SGPart :=
  ⟨sgi, 0, [], 0⟩

/-- make_sg_read_plan from scatgat.c over an abstract (module, disk) fan-out.
    The filesystem and the SG access layer's sg_open are modelled by fs,
    mapping a (module, disk) pair (the two integer fields of the path format
    string) to the SGInfo the open worker returns; the memory-mapped file
    descriptor smi.mmfd > 0 is the success witness, exactly as in the join
    loop of the C code.  Candidate order is the C loop order (modules outer,
    disks inner).  The C library qsort with compare_sg_info is modelled by
    insertionSort with the corresponding total order.  When no file opens,
    the C function frees its buffer and returns 0 without allocating the
    plan, so the plan is none. -/
def make_sg_read_plan (fs : Nat → Nat → SGInfo)
    (mod_list disk_list : List Nat) : Option SGPlan × Nat :=
  let results := mod_list.flatMap (fun m => disk_list.map (fun d => fs m d))
  let valid := results.filter (fun s => 0 < s.smi.mmfd)
  if valid.length = 0 then (none, 0)
  else
    (some ⟨SGMode.read, (List.insertionSort sg_info_le valid).map init_sg_part⟩,
     valid.length)

/-- Fan-out on which every open fails (mmfd stays negative). -/
def c5FsFail : Nat → Nat → SGInfo :=
  fun _ _ => ⟨⟨-1, 0, 0, 0⟩, 0, 0, 0, 0, 0, 0, 0, [], true, []⟩

/-- C5 counterexample: when zero files open, make_sg_read_plan returns 0 but
    never allocates the plan (the out-parameter is left unset), so no plan
    exists on which subsequent reads could return zero, contradicting the
    claim that the plan still exists. -/
theorem C5_zero_open_no_plan :
    (make_sg_read_plan c5FsFail [0] [0]).2 = 0 ∧
    (make_sg_read_plan c5FsFail [0] [0]).1 = none :=
  ⟨rfl, rfl⟩

/-- C5 (amended): make_sg_read_plan returns the number of successfully
    opened descriptors; when at least one opens, the plan exists, is in read
    mode, and its shard array holds exactly the successful descriptors
    sorted ascending by (first_secs, first_frame), each shard initialised
    with block_index 0, no staging buffer and frame_count 0; when zero files
    open the return value is 0 and no plan is allocated. -/
theorem C5_make_read_plan (fs : Nat → Nat → SGInfo)
    (mod_list disk_list : List Nat) :
    ((make_sg_read_plan fs mod_list disk_list).2 =
      ((mod_list.flatMap (fun m => disk_list.map (fun d => fs m d))).filter
        (fun s => 0 < s.smi.mmfd)).length) ∧
    (((mod_list.flatMap (fun m => disk_list.map (fun d => fs m d))).filter
        (fun s => 0 < s.smi.mmfd)).length = 0 →
      (make_sg_read_plan fs mod_list disk_list).1 = none) ∧
    (∀ pln, (make_sg_read_plan fs mod_list disk_list).1 = some pln →
      pln.sgm = SGMode.read ∧
      (pln.sgprt.map SGPart.sgi).Perm
        ((mod_list.flatMap (fun m => disk_list.map (fun d => fs m d))).filter
          (fun s => 0 < s.smi.mmfd)) ∧
      List.Sorted sg_info_le (pln.sgprt.map SGPart.sgi) ∧
      ∀ p ∈ pln.sgprt, p.iblock = 0 ∧ p.data_buf = [] ∧ p.n_frames = 0) := by
  unfold make_sg_read_plan
  dsimp only
  by_cases hz : ((mod_list.flatMap (fun m => disk_list.map (fun d => fs m d))).filter
      (fun s => 0 < s.smi.mmfd)).length = 0
  · rw [if_pos hz]
    exact ⟨hz.symm, fun _ => rfl, fun pln hp => by simp at hp⟩
  · rw [if_neg hz]
    refine ⟨rfl, fun hc => absurd hc hz, ?_⟩
    intro pln hp
    have hpln : pln = ⟨SGMode.read,
        (List.insertionSort sg_info_le
          ((mod_list.flatMap (fun m => disk_list.map (fun d => fs m d))).filter
            (fun s => 0 < s.smi.mmfd))).map init_sg_part⟩ := by
      injection hp with hp2
      exact hp2.symm
    subst hpln
    have hmapid : ((List.insertionSort sg_info_le
        ((mod_list.flatMap (fun m => disk_list.map (fun d => fs m d))).filter
          (fun s => 0 < s.smi.mmfd))).map init_sg_part).map SGPart.sgi =
        List.insertionSort sg_info_le
          ((mod_list.flatMap (fun m => disk_list.map (fun d => fs m d))).filter
            (fun s => 0 < s.smi.mmfd)) := by
      rw [List.map_map]
      exact List.map_id _
    refine ⟨rfl, ?_, ?_, ?_⟩
    · rw [hmapid]
      exact List.perm_insertionSort _ _
    · rw [hmapid]
      exact List.sorted_insertionSort _ _
    · intro p hp2
      simp only [List.mem_map] at hp2
      obtain ⟨s, _, rfl⟩ := hp2
      exact ⟨rfl, rfl, rfl⟩

/-- INITIAL_SIZE_IN_BLOCKS from scatgat.c. -/
def INITIAL_SIZE_IN_BLOCKS : Nat := 1000

/-- GROWTH_SIZE_IN_BLOCKS from scatgat.c. -/
def GROWTH_SIZE_IN_BLOCKS : Nat := 1000

/-- Sizes fixed by external headers that are not part of this repository:
    WBLOCK_SIZE (dplane_proxy.h), sizeof(struct file_header_tag) and
    sizeof(struct wb_header_tag) (sg_access.h), sizeof(VDIFHeader). -/
structure SGConfig where
  wblock_size : Nat
  fht_size : Nat
  wbht_size : Nat
  vdif_header_size : Nat

/-- resize_to_sg from scatgat.c: ftruncate to the new size, then mremap (or
    munmap when the new size is zero).  Syscall success is the environment
    model resizeOk; on failure nothing is changed and -1 is returned.  On
    success the backing file and the mapped region both have the new size
    (in the zero case the region is unmapped, which the same mapLen := 0
    records). -/
def resize_to_sg (sgi : SGInfo) (new_size : Nat) : SGInfo × Int :=
  if sgi.resizeOk then
    ({ sgi with smi :=
        { sgi.smi with fileLen := new_size, mapLen := new_size } }, 0)
  else (sgi, -1)

/-- write_to_sg from scatgat.c: grow the mapped region by
    GROWTH_SIZE_IN_BLOCKS write blocks exactly when the pending append of n
    bytes would overrun it, then memcpy at the write offset and advance the
    offset.  The bytes written are recorded in the data log. -/
def write_to_sg (cfg : SGConfig) (sgi : SGInfo) (src : AppendRec) (n : Nat) :
    SGInfo × Int :=
  if sgi.smi.mapLen < sgi.smi.size + n then
    let r := resize_to_sg sgi
      (sgi.smi.mapLen + GROWTH_SIZE_IN_BLOCKS * cfg.wblock_size)
    if r.2 = -1 then (sgi, -1)
    else
      ({ r.1 with
          smi := { r.1.smi with size := r.1.smi.size + n },
          data := r.1.data ++ [src] }, 0)
  else
    ({ sgi with
        smi := { sgi.smi with size := sgi.smi.size + n },
        data := sgi.data ++ [src] }, 0)

/-- sgthread_write_block from scatgat.c: append the file header tag on the
    first block, then the write-block header tag, then the payload bytes;
    abort on the first failed append (earlier appends remain) and increment
    the block counter only when all three succeed. -/
def sgthread_write_block (cfg : SGConfig) (sgprt : SGPart) : SGPart :=
  let wb_size := sgprt.sgi.pkt_size * sgprt.n_frames + cfg.wbht_size
  let step1 :=
    if sgprt.iblock = 0 then
      write_to_sg cfg sgprt.sgi
        (AppendRec.fileHeader sgprt.sgi.pkt_size
          (sgprt.sgi.pkt_size * (cfg.wblock_size / sgprt.sgi.pkt_size) +
            cfg.wbht_size))
        cfg.fht_size
    else (sgprt.sgi, 0)
  if step1.2 = -1 then { sgprt with sgi := step1.1 }
  else
    let step2 := write_to_sg cfg step1.1
      (AppendRec.blockHeader sgprt.iblock wb_size) cfg.wbht_size
    if step2.2 = -1 then { sgprt with sgi := step2.1 }
    else
      let step3 := write_to_sg cfg step2.1
        (AppendRec.payload (sgprt.data_buf.take sgprt.n_frames))
        (sgprt.sgi.pkt_size * sgprt.n_frames)
      if step3.2 = -1 then { sgprt with sgi := step3.1 }
      else { sgprt with sgi := step3.1, iblock := sgprt.iblock + 1 }

/-- first_write_sg_plan from scatgat.c: first write iff every shard's block
    counter is zero. -/
def first_write_sg_plan (pln : SGPlan) : Bool :=
  pln.sgprt.all (fun p => p.iblock = 0)

/-- First-write header fill of write_vdif_frames: copy the first VDIF
    header's fields into every shard's SGInfo. -/
def write_fill_headers (cfg : SGConfig) (pln : SGPlan)
    (vdif_buf : List VDIFFrame) : SGPlan :=
  let hdr := vdif_buf.getD 0 default
  { pln with sgprt := pln.sgprt.map (fun p =>
      { p with sgi := { p.sgi with
          pkt_size := u32 (hdr.df_len * 8),
          pkt_offset := cfg.vdif_header_size,
          first_secs := hdr.secs_inre,
          first_frame := hdr.df_num_insec,
          ref_epoch := hdr.ref_epoch } }) }

/-- The plan after the conditional first-write header fill. -/
def write_plan_filled (cfg : SGConfig) (pln : SGPlan)
    (vdif_buf : List VDIFFrame) : SGPlan :=
  if first_write_sg_plan pln then write_fill_headers cfg pln vdif_buf else pln

/-- Packet size used by the write loop (shard 0 of the filled plan). -/
def write_pkt_size (cfg : SGConfig) (pln : SGPlan)
    (vdif_buf : List VDIFFrame) : Nat :=
  ((write_plan_filled cfg pln vdif_buf).sgprt.getD 0 default).sgi.pkt_size

/-- Search loop for the starting shard of write_vdif_frames: first index
    with minimal block counter. -/
def first_sg_idx (parts : List SGPart) : Nat :=
  (List.range parts.length).foldl
    (fun best i =>
      if (parts.getD i default).iblock < (parts.getD best default).iblock
      then i else best) 0

/-- Inner loop of one write cycle: while frames remain, assign the next
    min(frames_per_block, remaining) frames to shard (ithread + first) mod
    n_sg as a view into the caller's buffer and run the writer.  Each shard
    is touched at most once per cycle, so running the spawned writers in
    assignment order is a faithful linearisation of the join.  The fuel is
    n_sg - ithread, the remaining loop iterations. -/
def write_cycle_go (cfg : SGConfig) (vdif_buf : List VDIFFrame)
    (frames_per_block n_frames first n_sg : Nat) :
    Nat → Nat → Nat → List SGPart → List SGPart × Nat
  | 0, _, fw, parts => (parts, fw)
  | fuel + 1, ithread, fw, parts =>
      if fw < n_frames then
        let idx := (ithread + first) % n_sg
        let chunk := min frames_per_block (n_frames - fw)
        let p := parts.getD idx default
        let p2 := sgthread_write_block cfg ⟨p.sgi, p.iblock, vdif_buf.drop fw, chunk⟩
        write_cycle_go cfg vdif_buf frames_per_block n_frames first n_sg
          fuel (ithread + 1) (fw + chunk) (parts.set idx p2)
      else (parts, fw)

/-- Outer while loop of write_vdif_frames: repeat write cycles until all
    frames are assigned.  The fuel bounds the number of cycles; none marks
    the diverging executions (the C loop would spin forever, e.g. when
    frames_per_block is 0). -/
def write_loop (cfg : SGConfig) (vdif_buf : List VDIFFrame)
    (frames_per_block n_frames first n_sg : Nat) :
    Nat → Nat → List SGPart → Option (List SGPart × Nat)
  | 0, fw, parts => if fw < n_frames then none else some (parts, fw)
  | fuel + 1, fw, parts =>
      if fw < n_frames then
        let c := write_cycle_go cfg vdif_buf frames_per_block n_frames first
          n_sg n_sg 0 fw parts
        write_loop cfg vdif_buf frames_per_block n_frames first n_sg
          fuel c.2 c.1
      else some (parts, fw)

/-- write_vdif_frames from scatgat.c: -1 on a non-write-mode plan; otherwise
    fill headers on the first write, compute frames_per_block, pick the
    shard with minimal block counter and stripe the frames round-robin in
    write cycles.  The returned count is frames_written, advanced at spawn
    time for every assigned chunk. -/
def write_vdif_frames (cfg : SGConfig) (pln : SGPlan)
    (vdif_buf : List VDIFFrame) (n_frames : Nat) : Option (SGPlan × Int) :=
  if pln.sgm ≠ SGMode.write then some (pln, -1)
  else
    let pln2 := write_plan_filled cfg pln vdif_buf
    let frames_per_block := cfg.wblock_size / write_pkt_size cfg pln vdif_buf
    let first := first_sg_idx pln2.sgprt
    match write_loop cfg vdif_buf frames_per_block n_frames first
        pln2.sgprt.length (n_frames + 1) 0 pln2.sgprt with
    | none => none
    | some r => some (⟨pln2.sgm, r.1⟩, (r.2 : Int))

/-- sgthread_fill_write_sgi from scatgat.c: create/truncate the file, map an
    initial region of INITIAL_SIZE_IN_BLOCKS write blocks, and reset the
    repurposed size field to zero.  openOk and mapOk model the open and the
    ftruncate/mmap syscall outcomes; resizeOk the outcomes of later resize
    syscalls on this file. -/
def sgthread_fill_write_sgi (cfg : SGConfig)
    (openOk mapOk resizeOk : Bool) : Option SGInfo :=
  if openOk = false then none
  else if mapOk = false then none
  else some ⟨⟨1, 0, INITIAL_SIZE_IN_BLOCKS * cfg.wblock_size,
      INITIAL_SIZE_IN_BLOCKS * cfg.wblock_size⟩,
    0, 0, 0, 0, 0, 0, 0, [], resizeOk, []⟩

/-- make_sg_write_plan from scatgat.c: fan out over (module, disk), keep the
    successfully created shards in candidate order (no time sort in write
    mode). -/
def make_sg_write_plan (cfg : SGConfig)
    (fs : Nat → Nat → Bool × Bool × Bool)
    (mod_list disk_list : List Nat) : SGPlan × Nat :=
  let results := mod_list.flatMap (fun m => disk_list.map (fun d =>
    sgthread_fill_write_sgi cfg (fs m d).1 (fs m d).2.1 (fs m d).2.2))
  let valid := results.filterMap id
  (⟨SGMode.write, valid.map init_sg_part⟩, valid.length)

/-- Per-shard action of close_sg_write_plan: a never-written shard (offset
    zero, different from the mapped length) has its size field restored to
    the mapped length, is closed and unlinked (no file remains, hence none);
    a written shard is first shrunk to exactly its written byte count when
    that differs from the mapped length; a shard whose offset equals the
    mapped length is closed as is.  The second component is the resulting
    on-disk file length, none when the file was unlinked. -/
def close_write_part (sgprt : SGPart) : SGInfo × Option Nat :=
  let sgi := sgprt.sgi
  if sgi.smi.size ≠ sgi.smi.mapLen then
    if sgi.smi.size = 0 then
      ({ sgi with smi := { sgi.smi with size := sgi.smi.mapLen } }, none)
    else
      ((resize_to_sg sgi sgi.smi.size).1,
       some (resize_to_sg sgi sgi.smi.size).1.smi.fileLen)
  else (sgi, some sgi.smi.fileLen)

/-- close_sg_write_plan from scatgat.c over all shards.  The mode check in
    the C code only prints a warning and does not change behaviour. -/
def close_sg_write_plan (pln : SGPlan) : List (SGInfo × Option Nat) :=
  pln.sgprt.map close_write_part

/-- C4: a read step or random-access read on a plan that is not in read
    mode, and a write on a plan that is not in write mode, each return -1
    with the plan unchanged, before any worker is spawned or any shard
    field is modified. -/
theorem C4_mode_mismatch (cfg : SGConfig) (p q : SGPlan)
    (buf : List VDIFFrame) (ib n : Nat)
    (hp : p.sgm ≠ SGMode.read) (hq : q.sgm ≠ SGMode.write) :
    read_next_block_vdif_frames p = (p, [], -1) ∧
    read_block_vdif_frames p ib = (p, [], -1) ∧
    write_vdif_frames cfg q buf n = some (q, -1) := by
  refine ⟨?_, ?_, ?_⟩
  · rw [read_next_block_vdif_frames, if_pos hp]
  · rw [read_block_vdif_frames, if_pos hp]
  · rw [write_vdif_frames, if_pos hq]

/-- Write-mode plan with no shards, used to instantiate mode-mismatch and
    close theorems. -/
def c4WritePlan : SGPlan :=
  ⟨SGMode.write, []⟩

def c4Cfg : SGConfig :=
  ⟨8192, 20, 8, 32⟩

theorem C4_mode_mismatch_witness :
    c4WritePlan.sgm ≠ SGMode.read ∧ c3Plan.sgm ≠ SGMode.write ∧
    (read_next_block_vdif_frames c4WritePlan = (c4WritePlan, [], -1) ∧
     read_block_vdif_frames c4WritePlan 0 = (c4WritePlan, [], -1) ∧
     write_vdif_frames c4Cfg c3Plan [] 0 = some (c3Plan, -1)) :=
  ⟨by decide, by decide,
   C4_mode_mismatch c4Cfg c4WritePlan c3Plan [] 0 0 (by decide) (by decide)⟩

/-- Number of payload frames recorded in a write log. -/
def payloadFrames (data : List AppendRec) : Nat :=
  (data.map (fun r => match r with
    | AppendRec.payload fr => fr.length
    | AppendRec.fileHeader _ _ => 0
    | AppendRec.blockHeader _ _ => 0)).sum

/-- Total payload frames over all shards of a plan. -/
def planPayloadFrames (parts : List SGPart) : Nat :=
  (parts.map (fun p => payloadFrames p.sgi.data)).sum

theorem payloadFrames_append (d : List AppendRec) (r : AppendRec) :
    payloadFrames (d ++ [r]) = payloadFrames d + payloadFrames [r] := by
  unfold payloadFrames
  rw [List.map_append, List.sum_append]

theorem planPayloadFrames_cons (p : SGPart) (parts : List SGPart) :
    planPayloadFrames (p :: parts) =
      payloadFrames p.sgi.data + planPayloadFrames parts := by
  unfold planPayloadFrames
  rw [List.map_cons, List.sum_cons]

theorem planPayload_set (parts : List SGPart) (i : Nat) (v : SGPart)
    (hi : i < parts.length) :
    planPayloadFrames (parts.set i v) +
      payloadFrames (parts.getD i default).sgi.data =
    planPayloadFrames parts + payloadFrames v.sgi.data := by
  induction parts generalizing i with
  | nil => simp at hi
  | cons x xs ih =>
      match i with
      | 0 =>
          simp only [List.set_cons_zero, List.getD_cons_zero,
            planPayloadFrames_cons]
          omega
      | i + 1 =>
          simp only [List.set_cons_succ, List.getD_cons_succ,
            planPayloadFrames_cons]
          have := ih i (by simpa using hi)
          omega

theorem write_to_sg_ok (cfg : SGConfig) (sgi : SGInfo) (src : AppendRec)
    (n : Nat) (h : sgi.resizeOk = true) :
    (write_to_sg cfg sgi src n).2 = 0 ∧
    (write_to_sg cfg sgi src n).1.data = sgi.data ++ [src] ∧
    (write_to_sg cfg sgi src n).1.resizeOk = true ∧
    (write_to_sg cfg sgi src n).1.pkt_size = sgi.pkt_size := by
  unfold write_to_sg resize_to_sg
  rw [h]
  split_ifs <;> simp_all

theorem sgthread_write_block_payload (cfg : SGConfig) (p : SGPart)
    (h : p.sgi.resizeOk = true) :
    payloadFrames (sgthread_write_block cfg p).sgi.data =
      payloadFrames p.sgi.data + (p.data_buf.take p.n_frames).length ∧
    (sgthread_write_block cfg p).sgi.resizeOk = true := by
  unfold sgthread_write_block
  dsimp only
  by_cases hib : p.iblock = 0
  · rw [if_pos hib]
    have h1 := write_to_sg_ok cfg p.sgi
      (AppendRec.fileHeader p.sgi.pkt_size
        (p.sgi.pkt_size * (cfg.wblock_size / p.sgi.pkt_size) + cfg.wbht_size))
      cfg.fht_size h
    rw [if_neg (by omega)]
    have h2 := write_to_sg_ok cfg _
      (AppendRec.blockHeader p.iblock
        (p.sgi.pkt_size * p.n_frames + cfg.wbht_size)) cfg.wbht_size h1.2.2.1
    rw [if_neg (by omega)]
    have h3 := write_to_sg_ok cfg _
      (AppendRec.payload (p.data_buf.take p.n_frames))
      (p.sgi.pkt_size * p.n_frames) h2.2.2.1
    rw [if_neg (by omega)]
    refine ⟨?_, h3.2.2.1⟩
    rw [h3.2.1, h2.2.1, h1.2.1]
    rw [payloadFrames_append, payloadFrames_append, payloadFrames_append]
    unfold payloadFrames
    simp
  · rw [if_neg hib]
    dsimp only
    rw [if_neg (by omega)]
    have h2 := write_to_sg_ok cfg p.sgi
      (AppendRec.blockHeader p.iblock
        (p.sgi.pkt_size * p.n_frames + cfg.wbht_size)) cfg.wbht_size h
    rw [if_neg (by omega)]
    have h3 := write_to_sg_ok cfg _
      (AppendRec.payload (p.data_buf.take p.n_frames))
      (p.sgi.pkt_size * p.n_frames) h2.2.2.1
    rw [if_neg (by omega)]
    refine ⟨?_, h3.2.2.1⟩
    rw [h3.2.1, h2.2.1]
    rw [payloadFrames_append, payloadFrames_append]
    unfold payloadFrames
    simp

theorem first_sg_idx_min (parts : List SGPart) :
    ∀ i < parts.length,
      (parts.getD (first_sg_idx parts) default).iblock ≤
        (parts.getD i default).iblock := by
  have key : ∀ (l : List Nat) (b0 : Nat),
      (parts.getD (l.foldl (fun best i =>
          if (parts.getD i default).iblock < (parts.getD best default).iblock
          then i else best) b0) default).iblock ≤
        (parts.getD b0 default).iblock ∧
      (∀ i ∈ l,
        (parts.getD (l.foldl (fun best i =>
            if (parts.getD i default).iblock < (parts.getD best default).iblock
            then i else best) b0) default).iblock ≤
          (parts.getD i default).iblock) := by
    intro l
    induction l with
    | nil => intro b0; exact ⟨Nat.le_refl _, by simp⟩
    | cons x xs ih =>
        intro b0
        simp only [List.foldl_cons]
        by_cases hx : (parts.getD x default).iblock <
            (parts.getD b0 default).iblock
        · rw [if_pos hx]
          have h1 := ih x
          refine ⟨Nat.le_trans h1.1 (Nat.le_of_lt hx), ?_⟩
          intro i hi
          rcases List.mem_cons.mp hi with rfl | hm
          · exact h1.1
          · exact h1.2 i hm
        · rw [if_neg hx]
          have h1 := ih b0
          refine ⟨h1.1, ?_⟩
          intro i hi
          rcases List.mem_cons.mp hi with rfl | hm
          · exact Nat.le_trans h1.1 (Nat.le_of_not_lt hx)
          · exact h1.2 i hm
  intro i hi
  unfold first_sg_idx
  exact (key (List.range parts.length) 0).2 i (List.mem_range.mpr hi)

theorem write_cycle_spec (cfg : SGConfig) (buf : List VDIFFrame)
    (fpb n first n_sg : Nat) (hfpb : 1 ≤ fpb) :
    ∀ (fuel ithread fw : Nat) (parts : List SGPart), fw ≤ n →
      fw ≤ (write_cycle_go cfg buf fpb n first n_sg fuel ithread fw parts).2 ∧
      (write_cycle_go cfg buf fpb n first n_sg fuel ithread fw parts).2 ≤ n ∧
      (1 ≤ fuel → fw < n →
        fw + 1 ≤ (write_cycle_go cfg buf fpb n first n_sg fuel ithread fw parts).2) ∧
      (write_cycle_go cfg buf fpb n first n_sg fuel ithread fw parts).1.length =
        parts.length ∧
      ((∀ p ∈ parts, p.sgi.resizeOk = true) → n ≤ buf.length →
        n_sg = parts.length → 0 < n_sg →
        (∀ p ∈ (write_cycle_go cfg buf fpb n first n_sg fuel ithread fw parts).1,
          p.sgi.resizeOk = true) ∧
        planPayloadFrames
            (write_cycle_go cfg buf fpb n first n_sg fuel ithread fw parts).1 +
          fw =
        planPayloadFrames parts +
          (write_cycle_go cfg buf fpb n first n_sg fuel ithread fw parts).2) := by
  intro fuel
  induction fuel with
  | zero =>
      intro ithread fw parts hfw
      refine ⟨Nat.le_refl _, hfw, by omega, rfl, ?_⟩
      intro hok _ _ _
      exact ⟨hok, rfl⟩
  | succ fuel ih =>
      intro ithread fw parts hfw
      rw [write_cycle_go]
      by_cases hlt : fw < n
      · rw [if_pos hlt]
        dsimp only
        have hchunk1 : 1 ≤ min fpb (n - fw) := by omega
        have hchunk2 : fw + min fpb (n - fw) ≤ n := by omega
        have hrec := ih (ithread + 1) (fw + min fpb (n - fw))
          ((parts.set ((ithread + first) % n_sg)
            (sgthread_write_block cfg
              ⟨(parts.getD ((ithread + first) % n_sg) default).sgi,
               (parts.getD ((ithread + first) % n_sg) default).iblock,
               buf.drop fw, min fpb (n - fw)⟩))) hchunk2
        refine ⟨by omega, hrec.2.1, fun _ _ => by omega, ?_, ?_⟩
        · rw [hrec.2.2.2.1, List.length_set]
        · intro hok hbuf hnsg hpos
          have hidx : (ithread + first) % n_sg < parts.length := by
            rw [← hnsg]
            exact Nat.mod_lt _ hpos
          have hpmem : parts.getD ((ithread + first) % n_sg) default ∈ parts :=
            getD_mem hidx
          have hpok : (parts.getD ((ithread + first) % n_sg)
              default).sgi.resizeOk = true := hok _ hpmem
          have hw := sgthread_write_block_payload cfg
            ⟨(parts.getD ((ithread + first) % n_sg) default).sgi,
             (parts.getD ((ithread + first) % n_sg) default).iblock,
             buf.drop fw, min fpb (n - fw)⟩ hpok
          have htakelen : ((buf.drop fw).take (min fpb (n - fw))).length =
              min fpb (n - fw) := by
            rw [List.length_take, List.length_drop]
            omega
          have hok2 : ∀ p ∈ parts.set ((ithread + first) % n_sg)
              (sgthread_write_block cfg
                ⟨(parts.getD ((ithread + first) % n_sg) default).sgi,
                 (parts.getD ((ithread + first) % n_sg) default).iblock,
                 buf.drop fw, min fpb (n - fw)⟩),
              p.sgi.resizeOk = true := by
            intro p hp
            rcases List.mem_or_eq_of_mem_set hp with hm | rfl
            · exact hok _ hm
            · exact hw.2
          have hset := planPayload_set parts ((ithread + first) % n_sg)
            (sgthread_write_block cfg
              ⟨(parts.getD ((ithread + first) % n_sg) default).sgi,
               (parts.getD ((ithread + first) % n_sg) default).iblock,
               buf.drop fw, min fpb (n - fw)⟩) hidx
          have hwp := hw.1
          dsimp only at hwp
          rw [htakelen] at hwp
          have hrec2 := hrec.2.2.2.2 hok2 hbuf (by rw [hnsg, List.length_set])
            hpos
          refine ⟨hrec2.1, ?_⟩
          have := hrec2.2
          omega
      · rw [if_neg hlt]
        refine ⟨Nat.le_refl _, hfw, by omega, rfl, ?_⟩
        intro hok _ _ _
        exact ⟨hok, rfl⟩

theorem write_loop_spec (cfg : SGConfig) (buf : List VDIFFrame)
    (fpb n first n_sg : Nat) (hpos : 0 < n_sg) (hfpb : 1 ≤ fpb) :
    ∀ (fuel fw : Nat) (parts : List SGPart), fw ≤ n → n - fw < fuel →
      ∃ parts2,
        write_loop cfg buf fpb n first n_sg fuel fw parts =
          some (parts2, n) ∧
        parts2.length = parts.length ∧
        ((∀ p ∈ parts, p.sgi.resizeOk = true) → n ≤ buf.length →
          n_sg = parts.length →
          planPayloadFrames parts2 + fw = planPayloadFrames parts + n) := by
  intro fuel
  induction fuel with
  | zero =>
      intro fw parts hfw hlt
      omega
  | succ fuel ih =>
      intro fw parts hfw hlt
      rw [write_loop]
      by_cases hcase : fw < n
      · rw [if_pos hcase]
        dsimp only
        have hc := write_cycle_spec cfg buf fpb n first n_sg hfpb n_sg 0 fw
          parts hfw
        have hprog : fw + 1 ≤
            (write_cycle_go cfg buf fpb n first n_sg n_sg 0 fw parts).2 :=
          hc.2.2.1 hpos hcase
        obtain ⟨parts2, heq, hlen, hpay⟩ := ih
          (write_cycle_go cfg buf fpb n first n_sg n_sg 0 fw parts).2
          (write_cycle_go cfg buf fpb n first n_sg n_sg 0 fw parts).1
          hc.2.1 (by omega)
        refine ⟨parts2, heq, by rw [hlen, hc.2.2.2.1], ?_⟩
        intro hok hbuf hnsg
        have hcyc := hc.2.2.2.2 hok hbuf hnsg hpos
        have hrec := hpay hcyc.1 hbuf (by rw [hc.2.2.2.1]; exact hnsg)
        omega
      · rw [if_neg hcase]
        have heqn : fw = n := by omega
        subst heqn
        exact ⟨parts, rfl, rfl, fun _ _ _ => by omega⟩

theorem write_plan_filled_length (cfg : SGConfig) (pln : SGPlan)
    (buf : List VDIFFrame) :
    (write_plan_filled cfg pln buf).sgprt.length = pln.sgprt.length := by
  unfold write_plan_filled write_fill_headers
  split_ifs <;> simp

theorem write_plan_filled_sgm (cfg : SGConfig) (pln : SGPlan)
    (buf : List VDIFFrame) :
    (write_plan_filled cfg pln buf).sgm = pln.sgm := by
  unfold write_plan_filled write_fill_headers
  split_ifs <;> rfl

theorem write_plan_filled_resizeOk (cfg : SGConfig) (pln : SGPlan)
    (buf : List VDIFFrame)
    (h : ∀ p ∈ pln.sgprt, p.sgi.resizeOk = true) :
    ∀ p ∈ (write_plan_filled cfg pln buf).sgprt, p.sgi.resizeOk = true := by
  unfold write_plan_filled write_fill_headers
  split_ifs
  · intro p hp
    simp only [List.mem_map] at hp
    obtain ⟨q, hq, rfl⟩ := hp
    exact h q hq
  · exact h

theorem write_plan_filled_payload (cfg : SGConfig) (pln : SGPlan)
    (buf : List VDIFFrame) :
    planPayloadFrames (write_plan_filled cfg pln buf).sgprt =
      planPayloadFrames pln.sgprt := by
  unfold write_plan_filled write_fill_headers
  split_ifs
  · unfold planPayloadFrames
    rw [List.map_map]
    rfl
  · rfl

def c7Cfg : SGConfig :=
  ⟨8, 4, 4, 32⟩

/-- Write shard whose mapped region is full (offset 8 of 8 mapped bytes) and
    whose resize syscalls fail. -/
def c7Sgi : SGInfo :=
  ⟨⟨1, 8, 8, 8⟩, 8, 0, 0, 0, 0, 0, 0, [], false, []⟩

def c7Plan : SGPlan :=
  ⟨SGMode.write, [⟨c7Sgi, 1, [], 0⟩]⟩

/-- C7 counterexample: on c7Plan the only write worker fails its resize
    (WriteShort), aborts the chunk and appends nothing, yet the call still
    returns frames_written = 1 because the counter advances at spawn time;
    the returned count does not stop at the last successful chunk (0). -/
theorem C7_failed_chunk_still_counted :
    (write_vdif_frames c7Cfg c7Plan [⟨100, 0, 0, 1⟩] 1).map
      (fun r => (r.2, planPayloadFrames r.1.sgprt)) = some ((1 : Int), 0) := by
  decide

/-- C7 (amended): write_vdif_frames on a write-mode plan with at least one
    shard and a positive frames_per_block stripes the frames round-robin in
    chunks of min(frames_per_block, remaining) starting from the shard with
    minimum block_index, and always returns n_frames (the count is advanced
    for every assigned chunk, including chunks whose worker later fails);
    when every resize succeeds, exactly n_frames frames are appended across
    the shards. -/
theorem C7_write_frames (cfg : SGConfig) (pln : SGPlan)
    (vdif_buf : List VDIFFrame) (n_frames : Nat)
    (hm : pln.sgm = SGMode.write)
    (hsg : 0 < pln.sgprt.length)
    (hfpb : 1 ≤ cfg.wblock_size / write_pkt_size cfg pln vdif_buf) :
    (∃ q, write_vdif_frames cfg pln vdif_buf n_frames =
        some (q, (n_frames : Int)) ∧
      ((∀ p ∈ pln.sgprt, p.sgi.resizeOk = true) →
        n_frames ≤ vdif_buf.length →
        planPayloadFrames q.sgprt =
          planPayloadFrames pln.sgprt + n_frames)) ∧
    (∀ i < (write_plan_filled cfg pln vdif_buf).sgprt.length,
      ((write_plan_filled cfg pln vdif_buf).sgprt.getD
          (first_sg_idx (write_plan_filled cfg pln vdif_buf).sgprt)
          default).iblock ≤
        ((write_plan_filled cfg pln vdif_buf).sgprt.getD i default).iblock) := by
  constructor
  · rw [write_vdif_frames, if_neg (by simp [hm])]
    dsimp only
    have hlen : (write_plan_filled cfg pln vdif_buf).sgprt.length =
        pln.sgprt.length := write_plan_filled_length cfg pln vdif_buf
    obtain ⟨parts2, heq, hlen2, hpay⟩ := write_loop_spec cfg vdif_buf
      (cfg.wblock_size / write_pkt_size cfg pln vdif_buf) n_frames
      (first_sg_idx (write_plan_filled cfg pln vdif_buf).sgprt)
      (write_plan_filled cfg pln vdif_buf).sgprt.length (by omega) hfpb
      (n_frames + 1) 0 (write_plan_filled cfg pln vdif_buf).sgprt
      (Nat.zero_le _) (by omega)
    rw [heq]
    refine ⟨_, rfl, ?_⟩
    intro hok hbuf
    have h1 := hpay (write_plan_filled_resizeOk cfg pln vdif_buf hok) hbuf rfl
    have h2 := write_plan_filled_payload cfg pln vdif_buf
    dsimp only
    omega
  · intro i hi
    exact first_sg_idx_min _ i hi

/-- Healthy write shard used to instantiate the write theorems. -/
def c7OkSgi : SGInfo :=
  ⟨⟨1, 0, 8000, 8000⟩, 8, 0, 0, 0, 0, 0, 0, [], true, []⟩

def c7OkPlan : SGPlan :=
  ⟨SGMode.write, [⟨c7OkSgi, 1, [], 0⟩]⟩

theorem C7_write_frames_witness :
    c7OkPlan.sgm = SGMode.write ∧ 0 < c7OkPlan.sgprt.length ∧
    1 ≤ c7Cfg.wblock_size / write_pkt_size c7Cfg c7OkPlan [⟨100, 0, 0, 1⟩] ∧
    ((∃ q, write_vdif_frames c7Cfg c7OkPlan [⟨100, 0, 0, 1⟩] 1 =
        some (q, ((1 : Nat) : Int)) ∧
      ((∀ p ∈ c7OkPlan.sgprt, p.sgi.resizeOk = true) →
        1 ≤ ([⟨100, 0, 0, 1⟩] : List VDIFFrame).length →
        planPayloadFrames q.sgprt =
          planPayloadFrames c7OkPlan.sgprt + 1)) ∧
    (∀ i < (write_plan_filled c7Cfg c7OkPlan [⟨100, 0, 0, 1⟩]).sgprt.length,
      ((write_plan_filled c7Cfg c7OkPlan [⟨100, 0, 0, 1⟩]).sgprt.getD
          (first_sg_idx
            (write_plan_filled c7Cfg c7OkPlan [⟨100, 0, 0, 1⟩]).sgprt)
          default).iblock ≤
        ((write_plan_filled c7Cfg c7OkPlan
            [⟨100, 0, 0, 1⟩]).sgprt.getD i default).iblock)) :=
  ⟨rfl, by decide, by decide,
   C7_write_frames c7Cfg c7OkPlan [⟨100, 0, 0, 1⟩] 1 rfl (by decide) (by decide)⟩

/-- The write-mode memory-map invariant of the specification: the mapped
    region length is a multiple of the write-block size and bounds the write
    offset. -/
def WriteInv (cfg : SGConfig) (sgi : SGInfo) : Prop :=
  sgi.smi.mapLen % cfg.wblock_size = 0 ∧ sgi.smi.size ≤ sgi.smi.mapLen

theorem write_to_sg_inv (cfg : SGConfig) (sgi : SGInfo) (src : AppendRec)
    (n : Nat) (hInv : WriteInv cfg sgi)
    (hn : n ≤ GROWTH_SIZE_IN_BLOCKS * cfg.wblock_size) :
    WriteInv cfg (write_to_sg cfg sgi src n).1 ∧
    (write_to_sg cfg sgi src n).1.pkt_size = sgi.pkt_size := by
  obtain ⟨hmod, hle⟩ := hInv
  unfold write_to_sg resize_to_sg
  by_cases hover : sgi.smi.mapLen < sgi.smi.size + n
  · rw [if_pos hover]
    by_cases hok : sgi.resizeOk
    · rw [if_pos hok]
      dsimp only
      rw [if_neg (by omega)]
      have hmod2 : (sgi.smi.mapLen + GROWTH_SIZE_IN_BLOCKS * cfg.wblock_size) %
          cfg.wblock_size = 0 := by
        unfold GROWTH_SIZE_IN_BLOCKS
        rw [Nat.add_mul_mod_self_right]
        exact hmod
      refine ⟨⟨?_, ?_⟩, rfl⟩
      · dsimp only
        exact hmod2
      · dsimp only
        omega
    · rw [if_neg hok]
      dsimp only
      rw [if_pos rfl]
      exact ⟨⟨hmod, hle⟩, rfl⟩
  · rw [if_neg hover]
    refine ⟨⟨?_, ?_⟩, rfl⟩
    · dsimp only
      exact hmod
    · dsimp only
      omega


theorem sgthread_write_block_inv (cfg : SGConfig) (p : SGPart)
    (hInv : WriteInv cfg p.sgi)
    (hfht : cfg.fht_size ≤ GROWTH_SIZE_IN_BLOCKS * cfg.wblock_size)
    (hwbht : cfg.wbht_size ≤ GROWTH_SIZE_IN_BLOCKS * cfg.wblock_size)
    (hpay : p.sgi.pkt_size * p.n_frames ≤ GROWTH_SIZE_IN_BLOCKS * cfg.wblock_size) :
    WriteInv cfg (sgthread_write_block cfg p).sgi ∧
    (sgthread_write_block cfg p).sgi.pkt_size = p.sgi.pkt_size := by
  unfold sgthread_write_block
  dsimp only
  by_cases hib : p.iblock = 0
  · rw [if_pos hib]
    have h1 := write_to_sg_inv cfg p.sgi
      (AppendRec.fileHeader p.sgi.pkt_size
        (p.sgi.pkt_size * (cfg.wblock_size / p.sgi.pkt_size) + cfg.wbht_size))
      cfg.fht_size hInv hfht
    set r1 := write_to_sg cfg p.sgi
      (AppendRec.fileHeader p.sgi.pkt_size
        (p.sgi.pkt_size * (cfg.wblock_size / p.sgi.pkt_size) + cfg.wbht_size))
      cfg.fht_size with hr1
    by_cases hc1 : r1.2 = -1
    · rw [if_pos hc1]
      exact h1
    · rw [if_neg hc1]
      have h2 := write_to_sg_inv cfg r1.1
        (AppendRec.blockHeader p.iblock
          (p.sgi.pkt_size * p.n_frames + cfg.wbht_size)) cfg.wbht_size h1.1 hwbht
      set r2 := write_to_sg cfg r1.1
        (AppendRec.blockHeader p.iblock
          (p.sgi.pkt_size * p.n_frames + cfg.wbht_size)) cfg.wbht_size with hr2
      by_cases hc2 : r2.2 = -1
      · rw [if_pos hc2]
        exact ⟨h2.1, by rw [h2.2, h1.2]⟩
      · rw [if_neg hc2]
        have h3 := write_to_sg_inv cfg r2.1
          (AppendRec.payload (p.data_buf.take p.n_frames))
          (p.sgi.pkt_size * p.n_frames) h2.1 hpay
        set r3 := write_to_sg cfg r2.1
          (AppendRec.payload (p.data_buf.take p.n_frames))
          (p.sgi.pkt_size * p.n_frames) with hr3
        by_cases hc3 : r3.2 = -1
        · rw [if_pos hc3]
          exact ⟨h3.1, by rw [h3.2, h2.2, h1.2]⟩
        · rw [if_neg hc3]
          exact ⟨h3.1, by rw [h3.2, h2.2, h1.2]⟩
  · rw [if_neg hib]
    dsimp only
    by_cases hc0 : ((p.sgi, (0 : Int))).2 = -1
    · rw [if_pos hc0]
      exact ⟨hInv, rfl⟩
    · rw [if_neg hc0]
      have h2 := write_to_sg_inv cfg p.sgi
        (AppendRec.blockHeader p.iblock
          (p.sgi.pkt_size * p.n_frames + cfg.wbht_size)) cfg.wbht_size hInv hwbht
      set r2 := write_to_sg cfg p.sgi
        (AppendRec.blockHeader p.iblock
          (p.sgi.pkt_size * p.n_frames + cfg.wbht_size)) cfg.wbht_size with hr2
      by_cases hc2 : r2.2 = -1
      · rw [if_pos hc2]
        exact h2
      · rw [if_neg hc2]
        have h3 := write_to_sg_inv cfg r2.1
          (AppendRec.payload (p.data_buf.take p.n_frames))
          (p.sgi.pkt_size * p.n_frames) h2.1 hpay
        set r3 := write_to_sg cfg r2.1
          (AppendRec.payload (p.data_buf.take p.n_frames))
          (p.sgi.pkt_size * p.n_frames) with hr3
        by_cases hc3 : r3.2 = -1
        · rw [if_pos hc3]
          exact ⟨h3.1, by rw [h3.2, h2.2]⟩
        · rw [if_neg hc3]
          exact ⟨h3.1, by rw [h3.2, h2.2]⟩

theorem write_cycle_go_length (cfg : SGConfig) (buf : List VDIFFrame)
    (fpb n first n_sg : Nat) :
    ∀ (fuel ithread fw : Nat) (parts : List SGPart),
      (write_cycle_go cfg buf fpb n first n_sg fuel ithread fw
        parts).1.length = parts.length := by
  intro fuel
  induction fuel with
  | zero => intro ithread fw parts; rfl
  | succ fuel ih =>
      intro ithread fw parts
      rw [write_cycle_go]
      by_cases hlt : fw < n
      · rw [if_pos hlt]
        dsimp only
        rw [ih, List.length_set]
      · rw [if_neg hlt]

theorem write_cycle_go_WriteInv (cfg : SGConfig) (buf : List VDIFFrame)
    (fpb n first n_sg pkt0 : Nat)
    (hfht : cfg.fht_size ≤ GROWTH_SIZE_IN_BLOCKS * cfg.wblock_size)
    (hwbht : cfg.wbht_size ≤ GROWTH_SIZE_IN_BLOCKS * cfg.wblock_size)
    (hfpb : pkt0 * fpb ≤ cfg.wblock_size) (hpos : 0 < n_sg) :
    ∀ (fuel ithread fw : Nat) (parts : List SGPart),
      n_sg = parts.length →
      (∀ p ∈ parts, WriteInv cfg p.sgi ∧ p.sgi.pkt_size = pkt0) →
      ∀ p ∈ (write_cycle_go cfg buf fpb n first n_sg fuel ithread fw parts).1,
        WriteInv cfg p.sgi ∧ p.sgi.pkt_size = pkt0 := by
  intro fuel
  induction fuel with
  | zero =>
      intro ithread fw parts hnsg hp
      exact hp
  | succ fuel ih =>
      intro ithread fw parts hnsg hp
      rw [write_cycle_go]
      by_cases hlt : fw < n
      · rw [if_pos hlt]
        dsimp only
        have hidx : (ithread + first) % n_sg < parts.length := by
          rw [← hnsg]
          exact Nat.mod_lt _ hpos
        have hpmem : parts.getD ((ithread + first) % n_sg) default ∈ parts :=
          getD_mem hidx
        have hpinv := hp _ hpmem
        have hpay : (parts.getD ((ithread + first) % n_sg)
              default).sgi.pkt_size * min fpb (n - fw) ≤
            GROWTH_SIZE_IN_BLOCKS * cfg.wblock_size := by
          have h1 : (parts.getD ((ithread + first) % n_sg)
                default).sgi.pkt_size * min fpb (n - fw) ≤ pkt0 * fpb := by
            rw [hpinv.2]
            exact Nat.mul_le_mul_left pkt0 (Nat.min_le_left _ _)
          have h2 : cfg.wblock_size ≤
              GROWTH_SIZE_IN_BLOCKS * cfg.wblock_size := by
            unfold GROWTH_SIZE_IN_BLOCKS
            omega
          omega
        have hw := sgthread_write_block_inv cfg
          ⟨(parts.getD ((ithread + first) % n_sg) default).sgi,
           (parts.getD ((ithread + first) % n_sg) default).iblock,
           buf.drop fw, min fpb (n - fw)⟩ hpinv.1 hfht hwbht hpay
        apply ih
        · rw [List.length_set]
          exact hnsg
        · intro q hq
          rcases List.mem_or_eq_of_mem_set hq with hmem | heq
          · exact hp q hmem
          · subst heq
            exact ⟨hw.1, by rw [hw.2]; exact hpinv.2⟩
      · rw [if_neg hlt]
        exact hp

theorem write_loop_WriteInv (cfg : SGConfig) (buf : List VDIFFrame)
    (fpb n first n_sg pkt0 : Nat)
    (hfht : cfg.fht_size ≤ GROWTH_SIZE_IN_BLOCKS * cfg.wblock_size)
    (hwbht : cfg.wbht_size ≤ GROWTH_SIZE_IN_BLOCKS * cfg.wblock_size)
    (hfpb : pkt0 * fpb ≤ cfg.wblock_size) (hpos : 0 < n_sg) :
    ∀ (fuel fw : Nat) (parts : List SGPart) (parts2 : List SGPart) (fw2 : Nat),
      n_sg = parts.length →
      (∀ p ∈ parts, WriteInv cfg p.sgi ∧ p.sgi.pkt_size = pkt0) →
      write_loop cfg buf fpb n first n_sg fuel fw parts =
        some (parts2, fw2) →
      ∀ p ∈ parts2, WriteInv cfg p.sgi ∧ p.sgi.pkt_size = pkt0 := by
  intro fuel
  induction fuel with
  | zero =>
      intro fw parts parts2 fw2 hnsg hp heq
      rw [write_loop] at heq
      by_cases hlt : fw < n
      · rw [if_pos hlt] at heq
        exact absurd heq (by simp)
      · rw [if_neg hlt] at heq
        have h2 : parts = parts2 := by
          have := Option.some.inj heq
          exact congrArg Prod.fst this
        rw [← h2]
        exact hp
  | succ fuel ih =>
      intro fw parts parts2 fw2 hnsg hp heq
      rw [write_loop] at heq
      by_cases hlt : fw < n
      · rw [if_pos hlt] at heq
        dsimp only at heq
        have hcinv := write_cycle_go_WriteInv cfg buf fpb n first n_sg pkt0
          hfht hwbht hfpb hpos n_sg 0 fw parts hnsg hp
        have hclen := write_cycle_go_length cfg buf fpb n first n_sg
          n_sg 0 fw parts
        exact ih _ _ parts2 fw2 (by rw [hclen]; exact hnsg) hcinv heq
      · rw [if_neg hlt] at heq
        have h2 : parts = parts2 := by
          have := Option.some.inj heq
          exact congrArg Prod.fst this
        rw [← h2]
        exact hp

theorem write_loop_length (cfg : SGConfig) (buf : List VDIFFrame)
    (fpb n first n_sg : Nat) :
    ∀ (fuel fw : Nat) (parts parts2 : List SGPart) (fw2 : Nat),
      write_loop cfg buf fpb n first n_sg fuel fw parts =
        some (parts2, fw2) →
      parts2.length = parts.length := by
  intro fuel
  induction fuel with
  | zero =>
      intro fw parts parts2 fw2 heq
      rw [write_loop] at heq
      by_cases hlt : fw < n
      · rw [if_pos hlt] at heq
        exact absurd heq (by simp)
      · rw [if_neg hlt] at heq
        have h2 : parts = parts2 := congrArg Prod.fst (Option.some.inj heq)
        rw [← h2]
  | succ fuel ih =>
      intro fw parts parts2 fw2 heq
      rw [write_loop] at heq
      by_cases hlt : fw < n
      · rw [if_pos hlt] at heq
        dsimp only at heq
        have h1 := ih _ _ parts2 fw2 heq
        rw [h1, write_cycle_go_length]
      · rw [if_neg hlt] at heq
        have h2 : parts = parts2 := congrArg Prod.fst (Option.some.inj heq)
        rw [← h2]

theorem write_plan_filled_WriteInv (cfg : SGConfig) (pln : SGPlan)
    (buf : List VDIFFrame)
    (hInvP : ∀ p ∈ pln.sgprt, WriteInv cfg p.sgi) :
    ∀ p ∈ (write_plan_filled cfg pln buf).sgprt, WriteInv cfg p.sgi := by
  intro p hp
  unfold write_plan_filled at hp
  by_cases hfw : first_write_sg_plan pln
  · rw [if_pos hfw] at hp
    unfold write_fill_headers at hp
    dsimp only at hp
    rcases List.mem_map.mp hp with ⟨q, hq, hpq⟩
    have := hInvP q hq
    rw [← hpq]
    exact this
  · rw [if_neg hfw] at hp
    exact hInvP p hp

theorem make_sg_write_plan_WriteInv (cfg : SGConfig)
    (fs : Nat → Nat → Bool × Bool × Bool) (mod_list disk_list : List Nat) :
    ∀ p ∈ (make_sg_write_plan cfg fs mod_list disk_list).1.sgprt,
      p.sgi.smi.mapLen = INITIAL_SIZE_IN_BLOCKS * cfg.wblock_size ∧
      p.sgi.smi.size = 0 ∧ WriteInv cfg p.sgi := by
  intro p hp
  unfold make_sg_write_plan at hp
  dsimp only at hp
  rcases List.mem_map.mp hp with ⟨s, hs, hps⟩
  rcases List.mem_filterMap.mp hs with ⟨o, ho, hos⟩
  rcases List.mem_flatMap.mp ho with ⟨m, hm, ho2⟩
  rcases List.mem_map.mp ho2 with ⟨d, hd, hod⟩
  rw [← hod] at hos
  unfold sgthread_fill_write_sgi at hos
  simp only [id] at hos
  split_ifs at hos
  have hsval := Option.some.inj hos
  subst hsval
  rw [← hps]
  unfold init_sg_part WriteInv
  dsimp only
  exact ⟨rfl, rfl, Nat.mul_mod_left _ _, Nat.zero_le _⟩

/-- C8: the write-mode memory-map invariant.  Shards created by
    make_sg_write_plan start with a mapped region of exactly
    INITIAL_SIZE_IN_BLOCKS write blocks and write offset zero, satisfying
    the invariant that the mapped length is a multiple of the write block
    size and bounds the offset; every append of n bytes grows the region by
    exactly GROWTH_SIZE_IN_BLOCKS write blocks precisely when offset + n
    would exceed it, re-establishing the invariant; and a whole
    write_vdif_frames call preserves the invariant on every shard of the
    resulting plan (the headers and each per-cycle chunk fit in one growth
    step). -/
theorem C8_mmap_invariant (cfg : SGConfig)
    (fs : Nat → Nat → Bool × Bool × Bool) (mod_list disk_list : List Nat)
    (sgi : SGInfo) (src : AppendRec) (n : Nat)
    (pln pln2 : SGPlan) (vdif_buf : List VDIFFrame) (n_frames : Nat)
    (ret : Int)
    (hInv : WriteInv cfg sgi)
    (hn : n ≤ GROWTH_SIZE_IN_BLOCKS * cfg.wblock_size)
    (hInvP : ∀ p ∈ pln.sgprt, WriteInv cfg p.sgi)
    (hpkt : ∀ p ∈ (write_plan_filled cfg pln vdif_buf).sgprt,
      p.sgi.pkt_size = write_pkt_size cfg pln vdif_buf)
    (hfht : cfg.fht_size ≤ GROWTH_SIZE_IN_BLOCKS * cfg.wblock_size)
    (hwbht : cfg.wbht_size ≤ GROWTH_SIZE_IN_BLOCKS * cfg.wblock_size)
    (hw : write_vdif_frames cfg pln vdif_buf n_frames = some (pln2, ret)) :
    (∀ p ∈ (make_sg_write_plan cfg fs mod_list disk_list).1.sgprt,
        p.sgi.smi.mapLen = INITIAL_SIZE_IN_BLOCKS * cfg.wblock_size ∧
        p.sgi.smi.size = 0 ∧ WriteInv cfg p.sgi) ∧
    ((write_to_sg cfg sgi src n).2 = 0 →
      (write_to_sg cfg sgi src n).1.smi.mapLen =
        (if sgi.smi.mapLen < sgi.smi.size + n
         then sgi.smi.mapLen + GROWTH_SIZE_IN_BLOCKS * cfg.wblock_size
         else sgi.smi.mapLen) ∧
      (write_to_sg cfg sgi src n).1.smi.size = sgi.smi.size + n) ∧
    WriteInv cfg (write_to_sg cfg sgi src n).1 ∧
    (∀ p ∈ pln2.sgprt, WriteInv cfg p.sgi) := by
  refine ⟨make_sg_write_plan_WriteInv cfg fs mod_list disk_list, ?_,
    (write_to_sg_inv cfg sgi src n hInv hn).1, ?_⟩
  · intro hret
    unfold write_to_sg resize_to_sg at hret ⊢
    by_cases hover : sgi.smi.mapLen < sgi.smi.size + n
    · rw [if_pos hover] at hret ⊢
      rw [if_pos hover]
      by_cases hok : sgi.resizeOk
      · rw [if_pos hok] at hret ⊢
        dsimp only at hret ⊢
        rw [if_neg (by omega)]
        exact ⟨rfl, rfl⟩
      · rw [if_neg hok] at hret
        dsimp only at hret
        rw [if_pos rfl] at hret
        simp at hret
    · rw [if_neg hover] at hret ⊢
      rw [if_neg hover]
      exact ⟨rfl, rfl⟩
  · unfold write_vdif_frames at hw
    by_cases hm : pln.sgm ≠ SGMode.write
    · rw [if_pos hm] at hw
      have h2 : pln = pln2 := congrArg Prod.fst (Option.some.inj hw)
      rw [← h2]
      exact hInvP
    · rw [if_neg hm] at hw
      dsimp only at hw
      cases hl : write_loop cfg vdif_buf
          (cfg.wblock_size / write_pkt_size cfg pln vdif_buf) n_frames
          (first_sg_idx (write_plan_filled cfg pln vdif_buf).sgprt)
          (write_plan_filled cfg pln vdif_buf).sgprt.length (n_frames + 1) 0
          (write_plan_filled cfg pln vdif_buf).sgprt with
      | none =>
          rw [hl] at hw
          exact Option.noConfusion hw
      | some r =>
          rw [hl] at hw
          dsimp only at hw
          have h1 : (⟨(write_plan_filled cfg pln vdif_buf).sgm, r.1⟩ : SGPlan)
              = pln2 := congrArg Prod.fst (Option.some.inj hw)
          rw [← h1]
          dsimp only
          by_cases hlen : (write_plan_filled cfg pln vdif_buf).sgprt.length = 0
          · have hr1 : r.1.length = 0 := by
              rw [write_loop_length cfg vdif_buf _ _ _ _ _ _ _ r.1 r.2
                (by rw [← hl])]
              exact hlen
            rw [List.length_eq_zero] at hr1
            rw [hr1]
            intro p hp
            exact absurd hp (List.not_mem_nil p)
          · have hstart : ∀ p ∈ (write_plan_filled cfg pln vdif_buf).sgprt,
                WriteInv cfg p.sgi ∧
                  p.sgi.pkt_size = write_pkt_size cfg pln vdif_buf := by
              intro p hp
              exact ⟨write_plan_filled_WriteInv cfg pln vdif_buf hInvP p hp,
                hpkt p hp⟩
            have hfpb : write_pkt_size cfg pln vdif_buf *
                (cfg.wblock_size / write_pkt_size cfg pln vdif_buf) ≤
                cfg.wblock_size := by
              rw [Nat.mul_comm]
              exact Nat.div_mul_le_self _ _
            intro p hp
            exact (write_loop_WriteInv cfg vdif_buf _ n_frames _ _ _
              hfht hwbht hfpb (by omega) (n_frames + 1) 0 _ r.1 r.2 rfl
              hstart (by rw [← hl]) p hp).1

/-- Plan state after the concrete one-frame write used to witness C8. -/
def c8Pln2 : SGPlan :=
  ⟨SGMode.write,
   [⟨⟨⟨1, 12, 8000, 8000⟩, 8, 0, 0, 0, 0, 0, 0, [], true,
      [AppendRec.blockHeader 1 12, AppendRec.payload [⟨100, 0, 0, 1⟩]]⟩,
     2, [⟨100, 0, 0, 1⟩], 1⟩]⟩

def c8Fs : Nat → Nat → Bool × Bool × Bool := fun _ _ => (true, true, true)

theorem C8_mmap_invariant_witness :
    (∀ p ∈ (make_sg_write_plan c7Cfg c8Fs [1] [2]).1.sgprt,
        p.sgi.smi.mapLen = INITIAL_SIZE_IN_BLOCKS * c7Cfg.wblock_size ∧
        p.sgi.smi.size = 0 ∧ WriteInv c7Cfg p.sgi) ∧
    ((write_to_sg c7Cfg c7OkSgi (AppendRec.payload []) 0).2 = 0 →
      (write_to_sg c7Cfg c7OkSgi (AppendRec.payload []) 0).1.smi.mapLen =
        (if c7OkSgi.smi.mapLen < c7OkSgi.smi.size + 0
         then c7OkSgi.smi.mapLen + GROWTH_SIZE_IN_BLOCKS * c7Cfg.wblock_size
         else c7OkSgi.smi.mapLen) ∧
      (write_to_sg c7Cfg c7OkSgi (AppendRec.payload []) 0).1.smi.size =
        c7OkSgi.smi.size + 0) ∧
    WriteInv c7Cfg (write_to_sg c7Cfg c7OkSgi (AppendRec.payload []) 0).1 ∧
    (∀ p ∈ c8Pln2.sgprt, WriteInv c7Cfg p.sgi) :=
  C8_mmap_invariant c7Cfg c8Fs [1] [2] c7OkSgi (AppendRec.payload []) 0
    c7OkPlan c8Pln2 [⟨100, 0, 0, 1⟩] 1 1 ⟨by decide, by decide⟩ (by decide)
    (by intro p hp
        simp [c7OkPlan] at hp
        subst hp
        exact ⟨by decide, by decide⟩)
    (by decide) (by decide) (by decide) rfl

/-- C9: closing a write plan.  On a plan whose shards have a nonempty mapped
    region, working resize syscalls and a backing file as long as the mapped
    region, close_sg_write_plan unlinks exactly the shards with write offset
    zero (restoring the repurposed size field to the mapped length first so
    the accessor's close routine behaves), shrinks every shard with a
    nonzero offset to exactly its written byte count, and therefore a plan
    in which no frames were ever written leaves no files on disk. -/
theorem C9_close_write_plan (pln : SGPlan)
    (hok : ∀ p ∈ pln.sgprt, 0 < p.sgi.smi.mapLen ∧ p.sgi.resizeOk = true ∧
      p.sgi.smi.fileLen = p.sgi.smi.mapLen) :
    (close_sg_write_plan pln).length = pln.sgprt.length ∧
    (∀ i, i < pln.sgprt.length →
      (((close_sg_write_plan pln).getD i default).2 = none ↔
        (pln.sgprt.getD i default).sgi.smi.size = 0) ∧
      ((pln.sgprt.getD i default).sgi.smi.size = 0 →
        ((close_sg_write_plan pln).getD i default).1.smi.size =
          (pln.sgprt.getD i default).sgi.smi.mapLen) ∧
      (0 < (pln.sgprt.getD i default).sgi.smi.size →
        ((close_sg_write_plan pln).getD i default).2 =
          some (pln.sgprt.getD i default).sgi.smi.size)) ∧
    ((∀ p ∈ pln.sgprt, p.sgi.smi.size = 0) →
      ∀ r ∈ close_sg_write_plan pln, r.2 = none) := by
  have hpart : ∀ p, 0 < p.sgi.smi.mapLen → p.sgi.resizeOk = true →
      p.sgi.smi.fileLen = p.sgi.smi.mapLen →
      ((close_write_part p).2 = none ↔ p.sgi.smi.size = 0) ∧
      (p.sgi.smi.size = 0 →
        (close_write_part p).1.smi.size = p.sgi.smi.mapLen) ∧
      (0 < p.sgi.smi.size →
        (close_write_part p).2 = some p.sgi.smi.size) := by
    intro p hml hrs hfl
    unfold close_write_part resize_to_sg
    dsimp only
    by_cases hsz : p.sgi.smi.size = 0
    · rw [if_pos (by omega), if_pos hsz]
      refine ⟨by simp [hsz], fun _ => rfl, fun hlt => absurd hsz (by omega)⟩
    · by_cases hne : p.sgi.smi.size = p.sgi.smi.mapLen
      · rw [if_neg (by omega)]
        refine ⟨by simp [hsz], fun h0 => absurd h0 hsz, fun _ => ?_⟩
        dsimp only
        rw [hfl, ← hne]
      · rw [if_pos (by omega), if_neg hsz, hrs]
        rw [if_pos rfl]
        exact ⟨by simp [hsz], fun h0 => absurd h0 hsz, fun _ => rfl⟩
  refine ⟨by rw [close_sg_write_plan, List.length_map], ?_, ?_⟩
  · intro i hi
    have hmem : pln.sgprt.getD i default ∈ pln.sgprt := getD_mem hi
    obtain ⟨hml, hrs, hfl⟩ := hok _ hmem
    have hgd : (close_sg_write_plan pln).getD i default =
        close_write_part (pln.sgprt.getD i default) := by
      rw [close_sg_write_plan]
      rw [List.getD_eq_getElem _ _ (by rw [List.length_map]; exact hi),
        List.getD_eq_getElem _ _ hi]
      exact List.getElem_map close_write_part
    rw [hgd]
    exact hpart _ hml hrs hfl
  · intro hz r hr
    rw [close_sg_write_plan] at hr
    rcases List.mem_map.mp hr with ⟨q, hq, hrq⟩
    obtain ⟨hml, hrs, hfl⟩ := hok q hq
    have := (hpart q hml hrs hfl).1
    rw [← hrq]
    exact this.mpr (hz q hq)

/-- Two-shard close fixture: shard 0 was never written, shard 1 holds 12
    bytes. -/
def c9Plan : SGPlan :=
  ⟨SGMode.write,
   [⟨⟨⟨1, 0, 8000, 8000⟩, 8, 0, 0, 0, 0, 0, 0, [], true, []⟩, 0, [], 0⟩,
    ⟨⟨⟨2, 12, 8000, 8000⟩, 8, 0, 0, 0, 0, 0, 0, [], true, []⟩, 2, [], 0⟩]⟩

theorem C9_close_write_plan_witness :
    (close_sg_write_plan c9Plan).length = c9Plan.sgprt.length ∧
    (∀ i, i < c9Plan.sgprt.length →
      (((close_sg_write_plan c9Plan).getD i default).2 = none ↔
        (c9Plan.sgprt.getD i default).sgi.smi.size = 0) ∧
      ((c9Plan.sgprt.getD i default).sgi.smi.size = 0 →
        ((close_sg_write_plan c9Plan).getD i default).1.smi.size =
          (c9Plan.sgprt.getD i default).sgi.smi.mapLen) ∧
      (0 < (c9Plan.sgprt.getD i default).sgi.smi.size →
        ((close_sg_write_plan c9Plan).getD i default).2 =
          some (c9Plan.sgprt.getD i default).sgi.smi.size)) ∧
    ((∀ p ∈ c9Plan.sgprt, p.sgi.smi.size = 0) →
      ∀ r ∈ close_sg_write_plan c9Plan, r.2 = none) :=
  C9_close_write_plan c9Plan (by decide)
